import Mathlib

/-!
Verification of the record reconciliation/merge engine of the tg-export
repository (`src/data_providers.py`).

Python records are dicts mapping field names to scalar values; the merge
engine treats all values as strings (`"Yes"`/`"No"` booleans, timestamps as
`"YYYY-MM-DD HH:MM:SS"` strings).  We embed a record as an association list
`List (String × String)` with Python-dict semantics: lookup returns the
first binding, assignment replaces the first binding in place or appends a
fresh one at the end (insertion order preserved, keys unique in any list
built from a real dict).  Exceptions (`raise ValueError`) are embedded as
`Except String`.
-/

namespace TgExport

/-- Equality on embedded exception results is decidable, so concrete runs
can be checked by evaluation. -/
instance {ε α : Type} [DecidableEq ε] [DecidableEq α] :
    DecidableEq (Except ε α) := fun x y =>
  match x, y with
  | .ok a, .ok b =>
    if h : a = b then .isTrue (by rw [h])
    else .isFalse fun hc => h (Except.ok.inj hc)
  | .error a, .error b =>
    if h : a = b then .isTrue (by rw [h])
    else .isFalse fun hc => h (Except.error.inj hc)
  | .ok _, .error _ => .isFalse fun hc => Except.noConfusion hc
  | .error _, .ok _ => .isFalse fun hc => Except.noConfusion hc

/-! ## Association lists with Python-dict semantics -/

/-- Lookup of the first binding of key `k`, mirroring Python `d.get(k)`. -/
def aget? {β : Type} : List (String × β) → String → Option β
  | [], _ => none
  | (k, v) :: l, f => if k = f then some v else aget? l f

/-- Assignment `d[k] = v`: replace the first binding in place, else append. -/
def aset {β : Type} : List (String × β) → String → β → List (String × β)
  | [], f, v => [(f, v)]
  | (k, w) :: l, f, v => if k = f then (f, v) :: l else (k, w) :: aset l f v

/-- Key list of an association list, in order (Python `d.keys()`). -/
def akeys {β : Type} (l : List (String × β)) : List String := l.map Prod.fst

theorem akeys_nil {β : Type} : akeys ([] : List (String × β)) = [] := rfl

theorem akeys_cons {β : Type} (k : String) (v : β) (l : List (String × β)) :
    akeys ((k, v) :: l) = k :: akeys l := rfl

theorem mem_akeys_of_mem {β : Type} {l : List (String × β)} {p : String × β}
    (h : p ∈ l) : p.1 ∈ akeys l := List.mem_map_of_mem Prod.fst h

theorem aget?_aset_self {β : Type} (l : List (String × β)) (k : String) (v : β) :
    aget? (aset l k v) k = some v := by
  induction l with
  | nil => simp [aset, aget?]
  | cons p l ih =>
    obtain ⟨k', w⟩ := p
    by_cases h : k' = k <;> simp [aset, aget?, h, ih]

theorem aget?_aset_ne {β : Type} (l : List (String × β)) {k k' : String} (v : β)
    (h : k' ≠ k) : aget? (aset l k' v) k = aget? l k := by
  induction l with
  | nil => simp [aset, aget?, h]
  | cons p l ih =>
    obtain ⟨k'', w⟩ := p
    by_cases h2 : k'' = k' <;> simp [aset, aget?, h2, ih]
    · subst h2; simp [h, aget?]

theorem aset_eq_self {β : Type} {l : List (String × β)} {k : String} {v : β}
    (h : aget? l k = some v) : aset l k v = l := by
  induction l with
  | nil => simp [aget?] at h
  | cons p l ih =>
    obtain ⟨k', w⟩ := p
    by_cases h2 : k' = k
    · subst h2
      simp [aget?] at h
      simp [aset, h]
    · simp [aget?, h2] at h
      simp [aset, h2, ih h]

theorem mem_akeys_iff_aget? {β : Type} (l : List (String × β)) (k : String) :
    k ∈ akeys l ↔ (aget? l k).isSome := by
  induction l with
  | nil => simp [akeys_nil, aget?]
  | cons p l ih =>
    obtain ⟨k', w⟩ := p
    rw [akeys_cons, List.mem_cons]
    by_cases h : k' = k <;> simp [aget?, h, ih]
    exact fun he => (h he.symm).elim

theorem aget?_eq_some_of_mem_nodup {β : Type} {l : List (String × β)}
    {k : String} {v : β} (hnd : (akeys l).Nodup) (hm : (k, v) ∈ l) :
    aget? l k = some v := by
  induction l with
  | nil => simp at hm
  | cons p l ih =>
    obtain ⟨k', w⟩ := p
    rw [akeys_cons, List.nodup_cons] at hnd
    rcases List.mem_cons.mp hm with h | h
    · cases h
      simp [aget?]
    · have hk : k' ≠ k := by
        intro he
        subst he
        exact hnd.1 (mem_akeys_of_mem h)
      simp [aget?, hk]
      exact ih hnd.2 h

theorem mem_of_aget?_eq_some {β : Type} {l : List (String × β)} {k : String}
    {v : β} (h : aget? l k = some v) : (k, v) ∈ l := by
  induction l with
  | nil => simp [aget?] at h
  | cons p l ih =>
    obtain ⟨k', w⟩ := p
    by_cases h2 : k' = k
    · subst h2; simp [aget?] at h; simp [h]
    · simp [aget?, h2] at h
      exact List.mem_cons_of_mem _ (ih h)

theorem mem_aset {β : Type} {l : List (String × β)} {k : String} {v : β}
    {p : String × β} (h : p ∈ aset l k v) : p = (k, v) ∨ p ∈ l := by
  induction l with
  | nil => simp [aset] at h; simp [h]
  | cons q l ih =>
    obtain ⟨k', w⟩ := q
    by_cases h2 : k' = k
    · simp [aset, h2] at h
      rcases h with h | h
      · exact Or.inl h
      · exact Or.inr (List.mem_cons_of_mem _ h)
    · simp [aset, h2] at h
      rcases h with h | h
      · exact Or.inr (by simp [h])
      · rcases ih h with h3 | h3
        · exact Or.inl h3
        · exact Or.inr (List.mem_cons_of_mem _ h3)

theorem aset_append_of_not_mem {β : Type} {l : List (String × β)} {k : String}
    (v : β) (h : k ∉ akeys l) : aset l k v = l ++ [(k, v)] := by
  induction l with
  | nil => simp [aset]
  | cons p l ih =>
    obtain ⟨k', w⟩ := p
    rw [akeys_cons, List.mem_cons] at h
    push_neg at h
    simp [aset, Ne.symm h.1, ih h.2]

theorem akeys_aset_of_mem {β : Type} {l : List (String × β)} {k : String}
    (v : β) (h : k ∈ akeys l) : akeys (aset l k v) = akeys l := by
  induction l with
  | nil => simp [akeys_nil] at h
  | cons p l ih =>
    obtain ⟨k', w⟩ := p
    by_cases h2 : k' = k
    · simp [aset, h2, akeys_cons]
    · rw [akeys_cons, List.mem_cons] at h
      rcases h with h | h
      · exact absurd h.symm h2
      · simp [aset, h2, akeys_cons, ih h]

theorem akeys_append {β : Type} (l₁ l₂ : List (String × β)) :
    akeys (l₁ ++ l₂) = akeys l₁ ++ akeys l₂ := by
  simp [akeys]

theorem akeys_aset_nodup {β : Type} {l : List (String × β)} {k : String}
    (v : β) (h : (akeys l).Nodup) : (akeys (aset l k v)).Nodup := by
  by_cases hm : k ∈ akeys l
  · rw [akeys_aset_of_mem v hm]; exact h
  · rw [aset_append_of_not_mem v hm, akeys_append]
    refine List.Nodup.append h (by simp [akeys]) ?hd
    intro a ha hb
    rw [show akeys [(k, v)] = [k] from rfl, List.mem_singleton] at hb
    exact hm (hb ▸ ha)

theorem aset_nonempty {β : Type} (l : List (String × β)) (k : String) (v : β) :
    aset l k v ≠ [] := by
  cases l with
  | nil => simp [aset]
  | cons p l =>
    obtain ⟨k', w⟩ := p
    by_cases h : k' = k <;> simp [aset, h]

theorem aset_aset_same {β : Type} (l : List (String × β)) (k : String) (v w : β) :
    aset (aset l k v) k w = aset l k w := by
  induction l with
  | nil => simp [aset]
  | cons p l ih =>
    obtain ⟨k', u⟩ := p
    by_cases h : k' = k <;> simp [aset, h, ih]

/-! ## Records -/

/-- A record: one Telegram-entity row, as a field-name/value mapping. -/
abbrev Record := List (String × String)

/-- Python `record.get(field, '')`. -/
def rget (r : Record) (f : String) : String := (aget? r f).getD ""

/-- Python `field in record`. -/
def rmem (r : Record) (f : String) : Bool := (aget? r f).isSome

theorem rget_eq_of_aget? {r : Record} {f v : String} (h : aget? r f = some v) :
    rget r f = v := by simp [rget, h]

theorem rmem_true_iff (r : Record) (f : String) :
    rmem r f = true ↔ ∃ v, aget? r f = some v := by
  simp [rmem, Option.isSome_iff_exists]

theorem aget?_eq_some_rget {r : Record} {f : String} (h : rmem r f = true) :
    aget? r f = some (rget r f) := by
  rcases (rmem_true_iff r f).mp h with ⟨v, hv⟩
  simp [rget, hv]

/-! ## Change Detector (`DataProvider._has_data_changed`)

String helpers mirror the Python operations used there: `str.strip()`
(whitespace trim), digit filtering for phone comparison, and the
`re.sub` call that removes a leading zero from the hour of a
`YYYY-MM-DD HH:MM:SS`-shaped value (ASCII digits).
-/

/-- The 12 standard Telegram-export columns (`self.standard_columns`). -/
def standardColumns : List String :=
  ["id", "username", "first_name", "last_name", "title", "phone",
   "is_contact", "is_bot", "has_chat", "unread_count", "last_message_date",
   "last_updated"]

/-- Comparable fields: the standard columns minus `id` and `last_updated`. -/
def comparableFields : List String :=
  ["username", "first_name", "last_name", "title", "phone", "is_contact",
   "is_bot", "has_chat", "unread_count", "last_message_date"]

/-- Whitespace for Python `str.strip()` (the ASCII whitespace characters;
Python also strips a handful of Unicode spaces, which these records never
contain). -/
def isPySpace (c : Char) : Bool :=
  c = ' ' || c = '\t' || c = '\n' || c = '\r' || c = '\x0b' || c = '\x0c'

/-- Python `s.strip()`. -/
def pyStrip (s : String) : String :=
  String.mk (((s.data.dropWhile isPySpace).reverse.dropWhile isPySpace).reverse)

/-- Python `''.join(filter(str.isdigit, s))`. -/
def digitsOnly (s : String) : String := String.mk (s.data.filter Char.isDigit)

/-- One left-to-right pass of
`re.sub(r'(\d{4}-\d{2}-\d{2} )\b0(\d):', r'\1\2:', s)` over the characters
of `s`: at every position a 14-character window shaped
`DDDD-DD-DD 0D:` is rewritten without the zero before the hour digit
(the word boundary between the space and `0` always holds), and scanning
resumes after the match; otherwise the scanner advances one character. -/
def dateSub : List Char → List Char
  | c1 :: tl@(c2 :: c3 :: c4 :: '-' :: c5 :: c6 :: '-' :: c7 :: c8 :: ' ' :: '0' :: d :: ':' :: rest) =>
    if c1.isDigit ∧ c2.isDigit ∧ c3.isDigit ∧ c4.isDigit ∧ c5.isDigit
        ∧ c6.isDigit ∧ c7.isDigit ∧ c8.isDigit ∧ d.isDigit then
      c1 :: c2 :: c3 :: c4 :: '-' :: c5 :: c6 :: '-' :: c7 :: c8 :: ' ' :: d :: ':' :: dateSub rest
    else
      c1 :: dateSub tl
  | c :: rest => c :: dateSub rest
  | [] => []

/-- Hour-zero normalisation on strings. -/
def dateNorm (s : String) : String := String.mk (dateSub s.data)

/-- Per-field change test for one comparable (standard) field, mirroring the
body of the `for field in comparable_fields` loop of `_has_data_changed`. -/
def fieldChanged (E N : Record) (f : String) : Bool :=
  let e0 := pyStrip (rget E f)
  let n0 := pyStrip (rget N f)
  if f = "phone" then
    let e := digitsOnly e0
    let n := digitsOnly n0
    decide (n ≠ "" ∧ e ≠ n)
  else if f = "unread_count" ∨ f = "last_message_date" then
    let effOld := e0
    let effNew := if n0 ≠ "" then n0 else e0
    if f = "last_message_date" ∧ effOld ≠ "" ∧ effNew ≠ ""
        ∧ dateNorm effOld = dateNorm effNew then
      false
    else
      decide (effOld ≠ effNew)
  else if f = "is_contact" then
    false
  else
    decide (n0 ≠ "" ∧ e0 ≠ n0)

/-- Change test for a field outside the standard set, mirroring the
`for field in all_fields` loop of `_has_data_changed`. -/
def additionalChanged (E N : Record) (f : String) : Bool :=
  let e0 := pyStrip (rget E f)
  let n0 := pyStrip (rget N f)
  if f = "is_contact" then false
  else decide (n0 ≠ "" ∧ e0 ≠ n0)

/-- The boolean comparison part of `_has_data_changed`: some comparable
field changed, or some additional (non-standard) field present in either
record changed.  Returning on the first hit in Python equals this
disjunction of `any`s. -/
def changedCore (E N : Record) : Bool :=
  comparableFields.any (fieldChanged E N) ||
    ((akeys E ++ akeys N).filter (fun f => !(standardColumns.contains f))).any
      (additionalChanged E N)

/-- Python `existing_record.get('id', new_record.get('id', 'unknown'))`. -/
def recordId (E N : Record) : String :=
  match aget? E "id" with
  | some v => v
  | none => (aget? N "id").getD "unknown"

/-- Full `_has_data_changed`: raises `ValueError("ID is unknown")` when the
resolved id is the placeholder, otherwise returns the comparison result. -/
def hasDataChanged (E N : Record) : Except String Bool :=
  if recordId E N = "unknown" then .error "ID is unknown"
  else .ok (changedCore E N)

/-! ## Record Merger (`DataProvider.preserve_additional_columns`) -/

/-- Python `'Yes' if (existing_val == 'Yes' or new_val == 'Yes') else 'No'`. -/
def orYes (e v : String) : String := if e = "Yes" ∨ v = "Yes" then "Yes" else "No"

/-- One iteration of the `for key, new_val in new_record.items()` loop:
`m` is the record being built (`merged_record`), `E` the original
`existing_record` (the loop always reads `existing_record.get(key, '')`,
never the partially merged record).  Branches in source order. -/
def mergeField (E : Record) (m : Record) (kv : String × String) : Record :=
  if kv.1 = "is_contact" then aset m kv.1 (orYes (rget E kv.1) kv.2)
  else if kv.1 = "has_chat" then aset m kv.1 (orYes (rget E kv.1) kv.2)
  else if kv.1 = "phone" ∨ kv.1 = "first_name" ∨ kv.1 = "last_name" then
    aset m kv.1 (if kv.2 = "" then rget E kv.1 else kv.2)
  else if kv.1 = "unread_count" ∨ kv.1 = "last_message_date" then
    aset m kv.1 (if kv.2 = "" then rget E kv.1 else kv.2)
  else if kv.1 = "last_updated" then m
  else if standardColumns.contains kv.1 then
    aset m kv.1 (if kv.2 = "" then rget E kv.1 else kv.2)
  else if kv.2 ≠ "" ∨ rmem E kv.1 = false then aset m kv.1 kv.2
  else m

/-- Full `preserve_additional_columns`: start from a copy of the existing
record, bump `last_updated` when `_has_data_changed` reports a change
(propagating its `ValueError`), then fold the per-field policy over the
new record's items. -/
def preserveAdditionalColumns (now : String) (E N : Record) :
    Except String Record :=
  match hasDataChanged E N with
  | .error e => .error e
  | .ok changed =>
    .ok (N.foldl (mergeField E) (if changed then aset E "last_updated" now else E))

/-! ## Table Reconciler (`CSVDataProvider.sync_data`)

A table is the row list of the provider's DataFrame; the merge loop keys
rows by their `id` column (already strings in our model, matching the
`astype(str)` conversions).  `merged_records` is a Python dict, embedded
as an association list with in-place update. -/

abbrev Table := List Record

abbrev Index := List (String × Record)

/-- Stamp `record['last_updated'] = now`. -/
def stamp (now : String) (r : Record) : Record := aset r "last_updated" now

/-- The id a row is keyed by: `row['id']`. -/
def uidOf (r : Record) : String := rget r "id"

/-- First loop of `sync_data`: `merged_records[row['id']] = row.to_dict()`. -/
def buildIndex (T : Table) : Index :=
  T.foldl (fun idx r => aset idx (uidOf r) r) []

/-- Body of the second loop of `sync_data` for one new row: merge into the
existing entry via `preserve_additional_columns`, or insert the row stamped
with the current timestamp. -/
def syncStep (now : String) (idx : Index) (n : Record) : Except String Index :=
  match aget? idx (uidOf n) with
  | some e =>
    match preserveAdditionalColumns now e n with
    | .error msg => .error msg
    | .ok m => .ok (aset idx (uidOf n) m)
  | none => .ok (aset idx (uidOf n) (stamp now n))

/-- The second loop of `sync_data` over the whole batch; an uncaught
`ValueError` from the merge aborts the loop (and `sync_data`). -/
def syncFold (now : String) : Index → List Record → Except String Index
  | idx, [] => .ok idx
  | idx, n :: R =>
    match syncStep now idx n with
    | .ok idx2 => syncFold now idx2 R
    | .error msg => .error msg

/-- `sync_data(new_data)` as a function of the existing table: an empty
existing table short-circuits to the new rows stamped with the current
timestamp; otherwise the keyed merge runs and the dict's values (in
insertion order) are returned. -/
def syncData (now : String) (T : Table) (R : List Record) :
    Except String Table :=
  if T.isEmpty then
    .ok (R.map (stamp now))
  else
    match syncFold now (buildIndex T) R with
    | .ok idx => .ok (idx.map Prod.snd)
    | .error msg => .error msg

/-! ## Store read (`CSVDataProvider.read_data` + `sync_data`)

`read_data` catches any exception from `pd.read_csv`, prints it, and
returns `pd.DataFrame()` — an empty table.  We model the read outcome with
a boolean: `readFails = true` means the underlying read raised. -/

/-- Result of `read_data()` given the stored table and whether the
underlying CSV read raised. -/
def readData (readFails : Bool) (stored : Table) : Table :=
  if readFails then [] else stored

/-- `sync_data` as actually run: it reads the existing table itself. -/
def syncWithRead (readFails : Bool) (now : String) (stored : Table)
    (R : List Record) : Except String Table :=
  syncData now (readData readFails stored) R

/-! ## The per-field resolved value

`mergeVal E k v` is the value `preserve_additional_columns` assigns for a
field `k` carried by the new record with value `v` (and, for the
non-assigning extension case, the existing value that is kept).  It mirrors
the branches of `mergeField`. -/

def mergeVal (E : Record) (k v : String) : String :=
  if k = "is_contact" then orYes (rget E k) v
  else if k = "has_chat" then orYes (rget E k) v
  else if k = "phone" ∨ k = "first_name" ∨ k = "last_name" then
    (if v = "" then rget E k else v)
  else if k = "unread_count" ∨ k = "last_message_date" then
    (if v = "" then rget E k else v)
  else if k = "last_updated" then rget E k
  else if standardColumns.contains k then (if v = "" then rget E k else v)
  else if v ≠ "" ∨ rmem E k = false then v
  else rget E k

theorem mergeVal_ic {E : Record} {k : String} (v : String)
    (h : k = "is_contact") : mergeVal E k v = orYes (rget E k) v := by
  subst h; rfl

theorem mergeVal_hc {E : Record} {k : String} (v : String)
    (h : k = "has_chat") : mergeVal E k v = orYes (rget E k) v := by
  subst h; rfl

theorem std_cases {k : String} (h : standardColumns.contains k = true) :
    k = "id" ∨ k = "username" ∨ k = "first_name" ∨ k = "last_name"
      ∨ k = "title" ∨ k = "phone" ∨ k = "is_contact" ∨ k = "is_bot"
      ∨ k = "has_chat" ∨ k = "unread_count" ∨ k = "last_message_date"
      ∨ k = "last_updated" := by
  have hm : k ∈ standardColumns := by
    simpa [List.contains_iff_exists_mem_beq, beq_iff_eq, eq_comm] using h
  simpa [standardColumns] using hm

theorem not_std_lits {k : String} (hc : standardColumns.contains k = false) :
    k ≠ "id" ∧ k ≠ "username" ∧ k ≠ "first_name" ∧ k ≠ "last_name"
      ∧ k ≠ "title" ∧ k ≠ "phone" ∧ k ≠ "is_contact" ∧ k ≠ "is_bot"
      ∧ k ≠ "has_chat" ∧ k ≠ "unread_count" ∧ k ≠ "last_message_date"
      ∧ k ≠ "last_updated" := by
  refine ⟨?a, ?b, ?c, ?d, ?e, ?f, ?g, ?h, ?i, ?j, ?k, ?l⟩ <;>
    (intro h; subst h; exact absurd hc (by decide))

theorem mergeVal_std_of {E : Record} {k : String} (v : String)
    (h1 : k ≠ "is_contact") (h2 : k ≠ "has_chat") (h5 : k ≠ "last_updated")
    (hk : standardColumns.contains k = true) :
    mergeVal E k v = if v = "" then rget E k else v := by
  rcases std_cases hk with h | h | h | h | h | h | h | h | h | h | h | h <;>
    first
    | (exact absurd h h1)
    | (exact absurd h h2)
    | (exact absurd h h5)
    | (subst h; rfl)

theorem mergeVal_ext_of {E : Record} {k : String} (v : String)
    (hc : standardColumns.contains k = false) :
    mergeVal E k v = if v ≠ "" ∨ rmem E k = false then v else rget E k := by
  obtain ⟨-, -, n3, n4, -, n6, n7, -, n9, n10, n11, n12⟩ := not_std_lits hc
  unfold mergeVal
  rw [if_neg n7, if_neg n9, if_neg (by push_neg; exact ⟨n6, n3, n4⟩),
    if_neg (by push_neg; exact ⟨n10, n11⟩), if_neg n12,
    if_neg (by simp only [hc]; exact Bool.false_ne_true)]

/-- Compact characterisation of `mergeField`: the loop body either skips
`last_updated`, assigns the resolved value for a field it writes, or (for
an extension field with an empty new value that the existing record
already holds) leaves the merged record untouched. -/
theorem mergeField_eq (E m : Record) (kv : String × String) :
    mergeField E m kv =
      if kv.1 = "last_updated" then m
      else if standardColumns.contains kv.1 then
        aset m kv.1 (mergeVal E kv.1 kv.2)
      else if kv.2 ≠ "" ∨ rmem E kv.1 = false then aset m kv.1 kv.2
      else m := by
  obtain ⟨k, v⟩ := kv
  dsimp only
  by_cases hlu : k = "last_updated"
  · subst hlu; rfl
  · by_cases hstd : standardColumns.contains k = true
    · rw [if_neg hlu, if_pos hstd]
      rcases std_cases hstd with h | h | h | h | h | h | h | h | h | h | h | h <;>
        first
        | (exact absurd h hlu)
        | (subst h; rfl)
    · have hstd2 : standardColumns.contains k = false := by
        revert hstd; cases standardColumns.contains k <;> simp
      obtain ⟨-, -, n3, n4, -, n6, n7, -, n9, n10, n11, n12⟩ := not_std_lits hstd2
      unfold mergeField
      dsimp only
      rw [if_neg n7, if_neg n9, if_neg (by push_neg; exact ⟨n6, n3, n4⟩),
        if_neg (by push_neg; exact ⟨n10, n11⟩), if_neg n12, if_neg hstd,
        if_neg hlu, if_neg hstd]

theorem mergeField_lu {E m : Record} {kv : String × String}
    (h : kv.1 = "last_updated") : mergeField E m kv = m := by
  rw [mergeField_eq, if_pos h]

theorem mergeField_aget?_ne {E m : Record} {kv : String × String} {k : String}
    (h : kv.1 ≠ k) : aget? (mergeField E m kv) k = aget? m k := by
  rw [mergeField_eq]
  split_ifs <;> first | rfl | exact aget?_aset_ne m _ h

theorem rmem_true_of_not_cond {E : Record} {k v : String}
    (h : ¬(v ≠ "" ∨ rmem E k = false)) : v = "" ∧ rmem E k = true := by
  push_neg at h
  refine ⟨h.1, ?m⟩
  revert h
  cases rmem E k <;> simp

/-- After one loop iteration for the pair `kv`, the merged record holds the
resolved value at `kv.1` (provided the accumulator still agrees with the
existing record there, which covers the non-assigning extension case). -/
theorem mergeField_aget?_self {E m : Record} {kv : String × String}
    (hlu : kv.1 ≠ "last_updated") (hm : aget? m kv.1 = aget? E kv.1) :
    aget? (mergeField E m kv) kv.1 = some (mergeVal E kv.1 kv.2) := by
  rw [mergeField_eq, if_neg hlu]
  by_cases hstd : standardColumns.contains kv.1 = true
  · rw [if_pos hstd]
    exact aget?_aset_self m kv.1 _
  · have hstd2 : standardColumns.contains kv.1 = false := by
      revert hstd; cases standardColumns.contains kv.1 <;> simp
    rw [if_neg (by simp only [hstd2]; exact Bool.false_ne_true)]
    by_cases hc : kv.2 ≠ "" ∨ rmem E kv.1 = false
    · rw [if_pos hc, mergeVal_ext_of _ hstd2, if_pos hc]
      exact aget?_aset_self m kv.1 _
    · rw [if_neg hc, mergeVal_ext_of _ hstd2, if_neg hc, hm]
      exact aget?_eq_some_rget (rmem_true_of_not_cond hc).2

/-- A loop iteration is a no-op when the accumulator already holds the
resolved value for that field. -/
theorem mergeField_fix {M m : Record} {kv : String × String}
    (hm : aget? m kv.1 = some (mergeVal M kv.1 kv.2)) :
    mergeField M m kv = m := by
  rw [mergeField_eq]
  by_cases hlu : kv.1 = "last_updated"
  · rw [if_pos hlu]
  · rw [if_neg hlu]
    by_cases hstd : standardColumns.contains kv.1 = true
    · rw [if_pos hstd]
      exact aset_eq_self hm
    · have hstd2 : standardColumns.contains kv.1 = false := by
        revert hstd; cases standardColumns.contains kv.1 <;> simp
      rw [if_neg (by simp only [hstd2]; exact Bool.false_ne_true)]
      by_cases hc : kv.2 ≠ "" ∨ rmem M kv.1 = false
      · rw [if_pos hc]
        rw [mergeVal_ext_of _ hstd2, if_pos hc] at hm
        exact aset_eq_self hm
      · rw [if_neg hc]

theorem orYes_orYes (e v : String) : orYes (orYes e v) v = orYes e v := by
  unfold orYes
  by_cases h : e = "Yes" ∨ v = "Yes"
  · rw [if_pos h, if_pos (Or.inl rfl)]
  · have hv : ¬v = "Yes" := fun hy => h (Or.inr hy)
    rw [if_neg h, if_neg ?notor]
    case notor =>
      rintro (hno | hy)
      · exact absurd hno (by decide)
      · exact hv hy

theorem orYes_self_of_yn {v : String} (h : v = "Yes" ∨ v = "No") :
    orYes v v = v := by
  rcases h with h | h <;> subst h <;> rfl

/-- Resolving once more with the same new value against the once-merged
record changes nothing: the per-field policy is idempotent in its
existing-value argument. -/
theorem mergeVal_stable {E M : Record} {k v : String}
    (hlu : k ≠ "last_updated") (h : aget? M k = some (mergeVal E k v)) :
    mergeVal M k v = mergeVal E k v := by
  have hsome : rmem M k = true := by simp [rmem, h]
  by_cases hic : k = "is_contact"
  · rw [mergeVal_ic v hic] at h ⊢
    rw [rget_eq_of_aget? h]
    rw [mergeVal_ic v hic]
    exact orYes_orYes _ _
  · by_cases hhc : k = "has_chat"
    · rw [mergeVal_hc v hhc] at h ⊢
      rw [rget_eq_of_aget? h]
      rw [mergeVal_hc v hhc]
      exact orYes_orYes _ _
    · by_cases hstd : standardColumns.contains k = true
      · rw [mergeVal_std_of v hic hhc hlu hstd] at h ⊢
        rw [mergeVal_std_of v hic hhc hlu hstd]
        by_cases hv : v = ""
        · rw [if_pos hv] at h ⊢
          rw [if_pos hv, rget_eq_of_aget? h]
        · rw [if_neg hv, if_neg hv]
      · have hstd2 : standardColumns.contains k = false := by
          revert hstd; cases standardColumns.contains k <;> simp
        rw [mergeVal_ext_of v hstd2] at h ⊢
        rw [mergeVal_ext_of v hstd2]
        by_cases hv : v = ""
        · subst hv
          rw [if_neg (by simp [hsome])]
          by_cases he : rmem E k = false
          · rw [if_pos (Or.inr he)] at h ⊢
            exact rget_eq_of_aget? h
          · rw [if_neg (by simp [he])] at h ⊢
            exact rget_eq_of_aget? h
        · rw [if_pos (Or.inl hv), if_pos (Or.inl hv)]

/-- For a record that already holds exactly the new record's values
(the freshly inserted, stamped case), resolving is the identity, as long
as boolean fields are well-formed `"Yes"`/`"No"` strings. -/
theorem mergeVal_self {M : Record} {k v : String}
    (hlu : k ≠ "last_updated") (hv : aget? M k = some v)
    (hyn : k = "is_contact" ∨ k = "has_chat" → v = "Yes" ∨ v = "No") :
    mergeVal M k v = v := by
  have hr : rget M k = v := rget_eq_of_aget? hv
  have hsome : rmem M k = true := by simp [rmem, hv]
  by_cases hic : k = "is_contact"
  · rw [mergeVal_ic v hic, hr]
    exact orYes_self_of_yn (hyn (Or.inl hic))
  · by_cases hhc : k = "has_chat"
    · rw [mergeVal_hc v hhc, hr]
      exact orYes_self_of_yn (hyn (Or.inr hhc))
    · by_cases hstd : standardColumns.contains k = true
      · rw [mergeVal_std_of v hic hhc hlu hstd]
        by_cases hve : v = ""
        · rw [if_pos hve, hr]
        · rw [if_neg hve]
      · have hstd2 : standardColumns.contains k = false := by
          revert hstd; cases standardColumns.contains k <;> simp
        rw [mergeVal_ext_of v hstd2]
        by_cases hve : v = ""
        · rw [if_neg (by simp [hve, hsome]), hr]
        · rw [if_pos (Or.inl hve)]

/-! ## Lemmas about the merge loop (`foldl (mergeField E)`) -/

theorem foldl_mergeField_untouched {E : Record} {k : String} :
    ∀ (N : List (String × String)) (m : Record),
      (k = "last_updated" ∨ k ∉ akeys N) →
      aget? (N.foldl (mergeField E) m) k = aget? m k := by
  intro N
  induction N with
  | nil => intro m _; rfl
  | cons kv N ih =>
    intro m h
    rw [List.foldl_cons]
    have hstep : aget? (mergeField E m kv) k = aget? m k := by
      by_cases hk : kv.1 = k
      · rcases h with h | h
        · rw [mergeField_lu (hk.trans h)]
        · exact absurd (hk ▸ mem_akeys_of_mem (List.mem_cons_self kv N)) h
      · exact mergeField_aget?_ne hk
    rw [← hstep]
    refine ih (mergeField E m kv) ?tail
    rcases h with h | h
    · exact Or.inl h
    · exact Or.inr fun hm => h (by rw [akeys_cons]; exact List.mem_cons_of_mem _ hm)

/-- Value of the merged record at a field carried by the new record:
exactly the resolved value `mergeVal`.  Requires the new record's keys to
be duplicate-free (they come from a Python dict) and the accumulator to
agree with the existing record at that key (true at loop entry). -/
theorem foldl_mergeField_char {E : Record} {k v : String} :
    ∀ (N : List (String × String)) (m : Record),
      (akeys N).Nodup → (k, v) ∈ N → k ≠ "last_updated" →
      aget? m k = aget? E k →
      aget? (N.foldl (mergeField E) m) k = some (mergeVal E k v) := by
  intro N
  induction N with
  | nil => intro m _ hm; simp at hm
  | cons kv N ih =>
    intro m hnd hmem hlu hagree
    rw [akeys_cons, List.nodup_cons] at hnd
    rw [List.foldl_cons]
    rcases List.mem_cons.mp hmem with h | h
    · have hk : kv = (k, v) := h.symm
      subst hk
      rw [foldl_mergeField_untouched N _ (Or.inr hnd.1)]
      exact mergeField_aget?_self hlu hagree
    · have hk : kv.1 ≠ k := by
        intro he
        exact hnd.1 (he ▸ mem_akeys_of_mem h)
      refine ih _ hnd.2 h hlu ?agree
      rw [mergeField_aget?_ne hk, hagree]

theorem foldl_mergeField_id {E2 : Record} :
    ∀ (N : List (String × String)) (m : Record),
      (∀ kv ∈ N, mergeField E2 m kv = m) → N.foldl (mergeField E2) m = m := by
  intro N
  induction N with
  | nil => intro m _; rfl
  | cons kv N ih =>
    intro m h
    rw [List.foldl_cons, h kv (List.mem_cons_self kv N)]
    exact ih m fun kv2 hm => h kv2 (List.mem_cons_of_mem _ hm)

/-! ## Re-merge stability at the record level -/

theorem hasDataChanged_ok_inv {E N : Record} {c : Bool}
    (h : hasDataChanged E N = .ok c) :
    recordId E N ≠ "unknown" ∧ c = changedCore E N := by
  unfold hasDataChanged at h
  by_cases hid : recordId E N = "unknown"
  · rw [if_pos hid] at h; cases h
  · rw [if_neg hid] at h
    exact ⟨hid, (Except.ok.inj h).symm⟩

theorem hasDataChanged_ok_of {E N : Record}
    (h : recordId E N ≠ "unknown") :
    hasDataChanged E N = .ok (changedCore E N) := by
  unfold hasDataChanged
  rw [if_neg h]

theorem preserve_ok_inv {now : String} {E N M : Record}
    (h : preserveAdditionalColumns now E N = .ok M) :
    ∃ c, hasDataChanged E N = .ok c ∧
      M = N.foldl (mergeField E) (if c then aset E "last_updated" now else E) := by
  unfold preserveAdditionalColumns at h
  cases hc : hasDataChanged E N with
  | error e => rw [hc] at h; cases h
  | ok c =>
    rw [hc] at h
    exact ⟨c, rfl, (Except.ok.inj h).symm⟩

theorem preserve_ok_of {now : String} {E N : Record} {c : Bool}
    (h : hasDataChanged E N = .ok c) :
    preserveAdditionalColumns now E N =
      .ok (N.foldl (mergeField E) (if c then aset E "last_updated" now else E)) := by
  unfold preserveAdditionalColumns
  rw [h]

theorem recordId_of_some {E N : Record} {uid : String}
    (h : aget? E "id" = some uid) : recordId E N = uid := by
  unfold recordId
  rw [h]

theorem recordId_of_none {E N : Record} (h : aget? E "id" = none) :
    recordId E N = (aget? N "id").getD "unknown" := by
  unfold recordId
  rw [h]

/-- The accumulator at loop entry agrees with the existing record away from
`last_updated`. -/
theorem aget?_base {E : Record} {c : Bool} {now k : String}
    (hk : k ≠ "last_updated") :
    aget? (if c then aset E "last_updated" now else E) k = aget? E k := by
  cases c
  · rfl
  · exact aget?_aset_ne E now (fun h => hk h.symm)

/-- Merging the same new record a second time, into the result of a first
merge, leaves every field unchanged and at most refreshes `last_updated`:
the second call returns the once-merged record, with `last_updated`
rewritten to the second timestamp exactly when the Change Detector fires
again. -/
theorem preserve_restable_of_merge {t1 t2 : String} {E N M : Record}
    (hnd : (akeys N).Nodup)
    (hid : aget? E "id" = some (rget N "id"))
    (h1 : preserveAdditionalColumns t1 E N = .ok M) :
    preserveAdditionalColumns t2 M N =
      .ok (if changedCore M N then aset M "last_updated" t2 else M) := by
  obtain ⟨c, hch, hM⟩ := preserve_ok_inv h1
  have hunk : rget N "id" ≠ "unknown" := by
    have := (hasDataChanged_ok_inv hch).1
    rwa [recordId_of_some hid] at this
  -- the merged record's value at any key the new record carries
  have hchar : ∀ kv : String × String, kv ∈ N → kv.1 ≠ "last_updated" →
      aget? M kv.1 = some (mergeVal E kv.1 kv.2) := by
    intro kv hm hlu
    rw [hM]
    exact foldl_mergeField_char N _ hnd (by simpa using hm) hlu (aget?_base hlu)
  -- the merged record still resolves the same (non-"unknown") id
  have hMid : recordId M N ≠ "unknown" := by
    by_cases hmem : "id" ∈ akeys N
    · obtain ⟨v0, hv0⟩ := Option.isSome_iff_exists.mp ((mem_akeys_iff_aget? N "id").mp hmem)
      have hv0r : rget N "id" = v0 := rget_eq_of_aget? hv0
      have hMv : aget? M "id" = some (mergeVal E "id" v0) :=
        hchar ("id", v0) (mem_of_aget?_eq_some hv0)
          (show ("id" : String) ≠ "last_updated" by decide)
      have hmv : mergeVal E "id" v0 = rget N "id" := by
        rw [mergeVal_std_of v0 (by decide) (by decide) (by decide) (by decide)]
        by_cases hv : v0 = ""
        · rw [if_pos hv, rget_eq_of_aget? hid, hv0r, hv]
        · rw [if_neg hv, hv0r]
      rw [recordId_of_some (hmv ▸ hMv)]
      exact hunk
    · have hN : aget? N "id" = none := by
        by_contra hcon
        exact hmem ((mem_akeys_iff_aget? N "id").mpr
          (Option.isSome_iff_ne_none.mpr hcon))
      have hNr : rget N "id" = "" := by simp [rget, hN]
      have hMv : aget? M "id" = some "" := by
        rw [hM, foldl_mergeField_untouched N _ (Or.inr hmem),
          aget?_base (by decide), hid, hNr]
      rw [recordId_of_some hMv]
      decide
  -- second pass: the fold fixes the once-merged record
  rw [preserve_ok_of (hasDataChanged_ok_of hMid)]
  congr 1
  refine foldl_mergeField_id N _ fun kv hkv => ?fix
  by_cases hlu : kv.1 = "last_updated"
  · exact mergeField_lu hlu
  · have hMk : aget? M kv.1 = some (mergeVal E kv.1 kv.2) := hchar kv hkv hlu
    refine mergeField_fix ?hm
    rw [aget?_base hlu, hMk, mergeVal_stable hlu hMk]

/-- Re-merging a freshly inserted (stamped) record with the new record it
came from leaves every field unchanged and at most refreshes
`last_updated`. -/
theorem preserve_restable_of_stamp {t1 t2 : String} {N : Record}
    (hnd : (akeys N).Nodup)
    (hid : rmem N "id" = true)
    (hunk : rget N "id" ≠ "unknown")
    (hyn : ∀ kv : String × String, kv ∈ N →
      kv.1 = "is_contact" ∨ kv.1 = "has_chat" → kv.2 = "Yes" ∨ kv.2 = "No") :
    preserveAdditionalColumns t2 (stamp t1 N) N =
      .ok (if changedCore (stamp t1 N) N then
            aset (stamp t1 N) "last_updated" t2
          else stamp t1 N) := by
  have hagree : ∀ k : String, k ≠ "last_updated" →
      aget? (stamp t1 N) k = aget? N k := by
    intro k hk
    exact aget?_aset_ne N t1 (fun h => hk h.symm)
  have hMid : recordId (stamp t1 N) N ≠ "unknown" := by
    have : aget? (stamp t1 N) "id" = some (rget N "id") := by
      rw [hagree "id" (by decide)]
      exact aget?_eq_some_rget hid
    rw [recordId_of_some this]
    exact hunk
  rw [preserve_ok_of (hasDataChanged_ok_of hMid)]
  congr 1
  refine foldl_mergeField_id N _ fun kv hkv => ?fix
  by_cases hlu : kv.1 = "last_updated"
  · exact mergeField_lu hlu
  · have hNv : aget? N kv.1 = some kv.2 :=
      aget?_eq_some_of_mem_nodup hnd (by simpa using hkv)
    have hMv : aget? (stamp t1 N) kv.1 = some kv.2 := by
      rw [hagree kv.1 hlu]; exact hNv
    refine mergeField_fix ?hm
    rw [aget?_base hlu, hMv, mergeVal_self hlu hMv (hyn kv hkv)]

/-! ## Per-claim helper lemmas -/

theorem orYes_yes_left (v : String) : orYes "Yes" v = "Yes" := by
  unfold orYes
  rw [if_pos (Or.inl rfl)]

theorem rget_base_eq {E : Record} {c : Bool} {now k : String}
    (hk : k ≠ "last_updated") :
    rget (if c then aset E "last_updated" now else E) k = rget E k := by
  unfold rget
  rw [aget?_base hk]

/-- Once `"Yes"`, `is_contact` survives the whole merge loop. -/
theorem foldl_mergeField_ic {E : Record}
    (hic : rget E "is_contact" = "Yes") :
    ∀ (N : List (String × String)) (m : Record),
      rget m "is_contact" = "Yes" →
      rget (N.foldl (mergeField E) m) "is_contact" = "Yes" := by
  intro N
  induction N with
  | nil => intro m h; exact h
  | cons kv N ih =>
    intro m h
    rw [List.foldl_cons]
    refine ih _ ?step
    by_cases hk : kv.1 = "is_contact"
    · have : mergeField E m kv = aset m kv.1 (orYes (rget E kv.1) kv.2) := by
        rw [mergeField_eq, if_neg (by rw [hk]; decide),
          if_pos (by rw [hk]; rfl)]
        rw [mergeVal_ic kv.2 hk]
      rw [this, hk]
      unfold rget at hic ⊢
      rw [aget?_aset_self, Option.getD_some, hic, orYes_yes_left]
    · unfold rget
      rw [mergeField_aget?_ne hk]
      exact h

/-! ## Snapshot Manager (`GoogleSheetsProvider.cleanup_old_backups`) -/

/-- One sheet tab of the spreadsheet, as `cleanup_old_backups` sees it:
`sheet['properties']['title']` and `sheet['properties']['sheetId']`. -/
structure SheetInfo where
  title : String
  sheetId : Nat
deriving DecidableEq

/-- A recognised backup sheet with its parsed minute-precision timestamp
(already encoded as a single sortable number). -/
structure BackupSheet where
  name : String
  sheetId : Nat
  timestamp : Nat
deriving DecidableEq

/-- Numeric value of an ASCII digit. -/
def digitVal (c : Char) : Nat := c.toNat - '0'.toNat

/-- Try a list of alternatives (in order) for one `strptime` field and
backtrack into the continuation, exactly as the CPython `_strptime` regex
engine does for the alternation groups of `%m`, `%d`, `%H`, `%M`. -/
def tryAlts {α : Type} (k : Nat → List Char → Option α) :
    List (List Char → Option (Nat × List Char)) → List Char → Option α
  | [], _ => none
  | p :: rest, s =>
    match p s with
    | some (n, s2) =>
      match k n s2 with
      | some r => some r
      | none => tryAlts k rest s
    | none => tryAlts k rest s

/-- Alternatives of the `%m` group `(1[0-2]|0[1-9]|[1-9])`. -/
def altMonth : List (List Char → Option (Nat × List Char)) :=
  [fun s => match s with
    | c1 :: c2 :: r =>
      if c1 = '1' ∧ '0' ≤ c2 ∧ c2 ≤ '2' then some (10 + digitVal c2, r) else none
    | _ => none,
   fun s => match s with
    | c1 :: c2 :: r =>
      if c1 = '0' ∧ '1' ≤ c2 ∧ c2 ≤ '9' then some (digitVal c2, r) else none
    | _ => none,
   fun s => match s with
    | c :: r => if '1' ≤ c ∧ c ≤ '9' then some (digitVal c, r) else none
    | _ => none]

/-- Alternatives of the `%d` group `(3[01]|[12]\d|0[1-9]|[1-9])`. -/
def altDay : List (List Char → Option (Nat × List Char)) :=
  [fun s => match s with
    | c1 :: c2 :: r =>
      if c1 = '3' ∧ ('0' ≤ c2 ∧ c2 ≤ '1') then some (30 + digitVal c2, r) else none
    | _ => none,
   fun s => match s with
    | c1 :: c2 :: r =>
      if ('1' ≤ c1 ∧ c1 ≤ '2') ∧ c2.isDigit then
        some (10 * digitVal c1 + digitVal c2, r)
      else none
    | _ => none,
   fun s => match s with
    | c1 :: c2 :: r =>
      if c1 = '0' ∧ '1' ≤ c2 ∧ c2 ≤ '9' then some (digitVal c2, r) else none
    | _ => none,
   fun s => match s with
    | c :: r => if '1' ≤ c ∧ c ≤ '9' then some (digitVal c, r) else none
    | _ => none]

/-- Alternatives of the `%H` group `(2[0-3]|[0-1]\d|\d)`. -/
def altHour : List (List Char → Option (Nat × List Char)) :=
  [fun s => match s with
    | c1 :: c2 :: r =>
      if c1 = '2' ∧ ('0' ≤ c2 ∧ c2 ≤ '3') then some (20 + digitVal c2, r) else none
    | _ => none,
   fun s => match s with
    | c1 :: c2 :: r =>
      if ('0' ≤ c1 ∧ c1 ≤ '1') ∧ c2.isDigit then
        some (10 * digitVal c1 + digitVal c2, r)
      else none
    | _ => none,
   fun s => match s with
    | c :: r => if c.isDigit then some (digitVal c, r) else none
    | _ => none]

/-- Alternatives of the `%M` group `([0-5]\d|\d)`. -/
def altMinute : List (List Char → Option (Nat × List Char)) :=
  [fun s => match s with
    | c1 :: c2 :: r =>
      if ('0' ≤ c1 ∧ c1 ≤ '5') ∧ c2.isDigit then
        some (10 * digitVal c1 + digitVal c2, r)
      else none
    | _ => none,
   fun s => match s with
    | c :: r => if c.isDigit then some (digitVal c, r) else none
    | _ => none]

/-- The `strptime("%Y%m%d_%H%M")` regex match: four digits for `%Y`, then
the month/day alternations, the literal underscore, and the hour/minute
alternations, with full backtracking.  Returns the parsed fields and the
unconsumed tail of the input. -/
def matchTimestamp (s : List Char) :
    Option (Nat × Nat × Nat × Nat × Nat × List Char) :=
  match s with
  | c1 :: c2 :: c3 :: c4 :: rest =>
    if c1.isDigit ∧ c2.isDigit ∧ c3.isDigit ∧ c4.isDigit then
      tryAlts (fun mo s1 =>
        tryAlts (fun d s2 =>
          match s2 with
          | '_' :: s3 =>
            tryAlts (fun h s4 =>
              tryAlts (fun mi s5 =>
                some (((digitVal c1 * 10 + digitVal c2) * 10 + digitVal c3) * 10
                        + digitVal c4, mo, d, h, mi, s5))
                altMinute s4)
              altHour s3
          | _ => none)
          altDay s1)
        altMonth rest
    else none
  | _ => none

def isLeap (y : Nat) : Bool :=
  (y % 4 = 0 && y % 100 ≠ 0) || y % 400 = 0

def daysInMonth (y mo : Nat) : Nat :=
  if mo = 2 then (if isLeap y then 29 else 28)
  else if mo = 4 ∨ mo = 6 ∨ mo = 9 ∨ mo = 11 then 30
  else 31

/-- Python `datetime.strptime(timestamp_str, "%Y%m%d_%H%M")`, reduced to a
sortable key: `none` when the regex does not match, when unconverted data
remains, or when the `datetime` constructor would reject the fields
(year 0, day past the end of the month); otherwise a number that orders
exactly as the parsed timestamps do. -/
def parseBackupTimestamp (s : String) : Option Nat :=
  match matchTimestamp s.data with
  | some (y, mo, d, h, mi, rest) =>
    if rest = [] ∧ 1 ≤ y ∧ d ≤ daysInMonth y mo then
      some ((((y * 13 + mo) * 32 + d) * 24 + h) * 60 + mi)
    else none
  | none => none

/-- Python `t.startswith(p)` on character lists. -/
def listStarts : List Char → List Char → Bool
  | [], _ => true
  | _ :: _, [] => false
  | p :: ps, c :: cs => if p = c then listStarts ps cs else false

/-- The backup-collection loop of `cleanup_old_backups`: keep the sheets
whose title starts with `{sheet_name}_backup_` and whose suffix parses as
a `%Y%m%d_%H%M` timestamp; sheets that fail either test are skipped. -/
def collectBackups (sheetName : String) (sheets : List SheetInfo) :
    List BackupSheet :=
  sheets.filterMap fun s =>
    if listStarts (sheetName ++ "_backup_").data s.title.data then
      match parseBackupTimestamp
          (String.mk (s.title.data.drop (sheetName ++ "_backup_").data.length)) with
      | some ts => some ⟨s.title, s.sheetId, ts⟩
      | none => none
    else none

/-- Stable descending insertion: the new element goes after every element
with an equal-or-newer timestamp.  Equals Python's stable
`sort(key=..., reverse=True)`. -/
def insertDesc (x : BackupSheet) : List BackupSheet → List BackupSheet
  | [] => [x]
  | y :: ys => if y.timestamp < x.timestamp then x :: y :: ys else y :: insertDesc x ys

def sortBackupsDesc (l : List BackupSheet) : List BackupSheet :=
  l.foldl (fun acc x => insertDesc x acc) []

/-- `backup_sheets[keep_count:]` after the descending sort: the sheets the
prune pass deletes. -/
def sheetsToDelete (sheetName : String) (sheets : List SheetInfo)
    (keepCount : Nat) : List BackupSheet :=
  (sortBackupsDesc (collectBackups sheetName sheets)).drop keepCount

/-- The body of the `try` block of `cleanup_old_backups`: returns 0 when
nothing is to delete, raises when the batch delete fails (`deleteFails`
models the deletion call raising), and otherwise returns the number of
deleted sheets. -/
def cleanupRaw (deleteFails : Bool) (sheetName : String)
    (sheets : List SheetInfo) (keepCount : Nat) : Except String Nat :=
  let toDelete := sheetsToDelete sheetName sheets keepCount
  if toDelete.isEmpty then .ok 0
  else if deleteFails then .error "batchUpdate failed"
  else .ok toDelete.length

/-- Full `cleanup_old_backups`: the surrounding `except Exception` prints
the error and returns 0, so the caller never sees a failure. -/
def cleanupOldBackups (deleteFails : Bool) (sheetName : String)
    (sheets : List SheetInfo) (keepCount : Nat) : Nat :=
  match cleanupRaw deleteFails sheetName sheets keepCount with
  | .ok n => n
  | .error _ => 0

/-! ## Claim C2 -/

/-- C2: OR-monotonicity of `is_contact`.  For every existing record whose
`is_contact` field is `"Yes"` and every new record — whatever `is_contact`
value it carries, or none at all — the merged record produced by
`preserve_additional_columns` has `is_contact = "Yes"`; a later merge can
never flip it back to `"No"`. -/
theorem c2_is_contact_or_monotone {t : String} {E N M : Record}
    (hok : preserveAdditionalColumns t E N = .ok M)
    (hic : rget E "is_contact" = "Yes") :
    rget M "is_contact" = "Yes" := by
  obtain ⟨c, hch, hM⟩ := preserve_ok_inv hok
  rw [hM]
  exact foldl_mergeField_ic hic N _
    (by rw [rget_base_eq (show ("is_contact" : String) ≠ "last_updated" by decide)]
        exact hic)

def c2E : Record := [("id", "7"), ("is_contact", "Yes"), ("status", "VIP")]

def c2N : Record := [("id", "7"), ("is_contact", "No"), ("first_name", "Ann")]

theorem c2_is_contact_or_monotone_witness :
    preserveAdditionalColumns "2024-06-01 00:00:00" c2E c2N =
      .ok [("id", "7"), ("is_contact", "Yes"), ("status", "VIP"),
           ("last_updated", "2024-06-01 00:00:00"), ("first_name", "Ann")]
    ∧ rget c2E "is_contact" = "Yes"
    ∧ rget [("id", "7"), ("is_contact", "Yes"), ("status", "VIP"),
            ("last_updated", "2024-06-01 00:00:00"), ("first_name", "Ann")]
        "is_contact" = "Yes" :=
  ⟨by decide, by decide,
   c2_is_contact_or_monotone (t := "2024-06-01 00:00:00") (E := c2E) (N := c2N)
     (M := [("id", "7"), ("is_contact", "Yes"), ("status", "VIP"),
            ("last_updated", "2024-06-01 00:00:00"), ("first_name", "Ann")])
     (by decide) (by decide)⟩

/-! ## Claim C3 -/

/-- C3: extension-field merge rule.  For every field `k` outside the
standard column set carried by the new record with value `v`, the merge
assigns `v` whenever `v` is non-empty or `k` is wholly absent from the
existing record, and otherwise keeps the existing value — so an empty new
value never blanks an extension field the existing record already holds. -/
theorem c3_extension_field_rule {t k v : String} {E N M : Record}
    (hnd : (akeys N).Nodup)
    (hext : standardColumns.contains k = false)
    (hkv : (k, v) ∈ N)
    (hok : preserveAdditionalColumns t E N = .ok M) :
    rget M k = if v ≠ "" ∨ rmem E k = false then v else rget E k := by
  obtain ⟨c, hch, hM⟩ := preserve_ok_inv hok
  have hlu : k ≠ "last_updated" := (not_std_lits hext).2.2.2.2.2.2.2.2.2.2.2
  have hchar : aget? M k = some (mergeVal E k v) := by
    rw [hM]
    exact foldl_mergeField_char N _ hnd hkv hlu (aget?_base hlu)
  rw [rget_eq_of_aget? hchar, mergeVal_ext_of v hext]

def c3E : Record := [("id", "7"), ("status", "VIP")]

def c3N : Record := [("id", "7"), ("status", "")]

theorem c3_extension_field_rule_witness :
    (akeys c3N).Nodup
    ∧ standardColumns.contains "status" = false
    ∧ ("status", "") ∈ c3N
    ∧ preserveAdditionalColumns "2024-06-01 00:00:00" c3E c3N = .ok c3E
    ∧ rget c3E "status" =
        (if ("" : String) ≠ "" ∨ rmem c3E "status" = false then ""
         else rget c3E "status") :=
  ⟨by decide, by decide, by decide, by decide,
   c3_extension_field_rule (t := "2024-06-01 00:00:00") (k := "status")
     (v := "") (E := c3E) (N := c3N) (M := c3E)
     (by decide) (by decide) (by decide) (by decide)⟩

/-! ## Claim C4 -/

/-- C4: change gating.  `last_updated` in the merged record equals the
current timestamp exactly when the Change Detector reported a change, and
is otherwise the existing record's `last_updated`, untouched — in
particular a merge whose comparable fields are all unchanged leaves
`last_updated` alone. -/
theorem c4_change_gating {t : String} {c : Bool} {E N M : Record}
    (hch : hasDataChanged E N = .ok c)
    (hok : preserveAdditionalColumns t E N = .ok M) :
    aget? M "last_updated" = if c then some t else aget? E "last_updated" := by
  rw [preserve_ok_of hch] at hok
  have hM := (Except.ok.inj hok).symm
  rw [hM, foldl_mergeField_untouched N _ (Or.inl rfl)]
  cases c
  · rfl
  · exact aget?_aset_self E "last_updated" t

def c4E : Record :=
  [("id", "7"), ("first_name", "Ann"), ("last_updated", "2023-01-01 00:00:00")]

def c4N : Record := [("id", "7"), ("first_name", "Ann")]

theorem c4_change_gating_witness :
    hasDataChanged c4E c4N = .ok false
    ∧ preserveAdditionalColumns "2024-06-01 00:00:00" c4E c4N = .ok c4E
    ∧ aget? c4E "last_updated" =
        (if false then some "2024-06-01 00:00:00"
         else aget? c4E "last_updated") :=
  ⟨by decide, by decide,
   c4_change_gating (t := "2024-06-01 00:00:00") (c := false) (E := c4E)
     (N := c4N) (M := c4E) (by decide) (by decide)⟩

/-! ## Claim C5 -/

/-- C5: phone normalization.  When the existing and new phone values carry
the same digit sequence once every non-digit is stripped, the Change
Detector's phone comparison reports no change; and when the new record
carries a non-empty phone value, the merged record's phone is that new
value. -/
theorem c5_phone_normalization {t v : String} {E N M : Record} :
    (digitsOnly (pyStrip (rget E "phone")) = digitsOnly (pyStrip (rget N "phone")) →
      fieldChanged E N "phone" = false)
    ∧ ((akeys N).Nodup → ("phone", v) ∈ N → v ≠ "" →
        preserveAdditionalColumns t E N = .ok M → rget M "phone" = v) := by
  constructor
  · intro h
    unfold fieldChanged
    rw [if_pos rfl, h]
    simp
  · intro hnd hkv hv hok
    obtain ⟨c, hch, hM⟩ := preserve_ok_inv hok
    have hlu : ("phone" : String) ≠ "last_updated" := by decide
    have hchar : aget? M "phone" = some (mergeVal E "phone" v) := by
      rw [hM]
      exact foldl_mergeField_char N _ hnd hkv hlu (aget?_base hlu)
    rw [rget_eq_of_aget? hchar,
      mergeVal_std_of v (by decide) (by decide) (by decide) (by decide),
      if_neg hv]

def c5E : Record := [("id", "7"), ("phone", "+1-555-0100")]

def c5N : Record := [("id", "7"), ("phone", "15550100")]

theorem c5_phone_normalization_witness :
    digitsOnly (pyStrip (rget c5E "phone")) = digitsOnly (pyStrip (rget c5N "phone"))
    ∧ fieldChanged c5E c5N "phone" = false
    ∧ (akeys c5N).Nodup
    ∧ ("phone", "15550100") ∈ c5N
    ∧ preserveAdditionalColumns "2024-06-01 00:00:00" c5E c5N =
        .ok [("id", "7"), ("phone", "15550100")]
    ∧ rget [(("id" : String), ("7" : String)), ("phone", "15550100")] "phone" =
        "15550100" :=
  ⟨by decide,
   (c5_phone_normalization (t := "2024-06-01 00:00:00") (v := "15550100")
     (E := c5E) (N := c5N)
     (M := [("id", "7"), ("phone", "15550100")])).1 (by decide),
   by decide, by decide, by decide,
   (c5_phone_normalization (t := "2024-06-01 00:00:00") (v := "15550100")
     (E := c5E) (N := c5N)
     (M := [("id", "7"), ("phone", "15550100")])).2
     (by decide) (by decide) (by decide) (by decide)⟩

/-! ## Claim C6 -/

/-- C6: missing-id fail-fast.  When neither the existing nor the new
record carries an `id` field, the Change Detector — and therefore the
merge, which invokes it first — raises the `ValueError` configuration
error instead of silently comparing under the placeholder key. -/
theorem c6_missing_id_fail_fast {t : String} {E N : Record}
    (hE : rmem E "id" = false) (hN : rmem N "id" = false) :
    hasDataChanged E N = .error "ID is unknown"
    ∧ preserveAdditionalColumns t E N = .error "ID is unknown" := by
  have hE2 : aget? E "id" = none := by
    revert hE
    unfold rmem
    cases aget? E "id" <;> simp
  have hN2 : aget? N "id" = none := by
    revert hN
    unfold rmem
    cases aget? N "id" <;> simp
  have hid : recordId E N = "unknown" := by
    rw [recordId_of_none hE2, hN2]
    rfl
  constructor
  · unfold hasDataChanged
    rw [if_pos hid]
  · unfold preserveAdditionalColumns hasDataChanged
    rw [if_pos hid]

theorem c6_missing_id_fail_fast_witness :
    rmem [(("username" : String), ("ann" : String))] "id" = false
    ∧ rmem [(("username" : String), ("ann2" : String))] "id" = false
    ∧ hasDataChanged [("username", "ann")] [("username", "ann2")] =
        .error "ID is unknown"
    ∧ preserveAdditionalColumns "2024-06-01 00:00:00"
        [("username", "ann")] [("username", "ann2")] =
        .error "ID is unknown" :=
  ⟨by decide, by decide,
   (c6_missing_id_fail_fast (t := "2024-06-01 00:00:00")
     (E := [("username", "ann")]) (N := [("username", "ann2")])
     (by decide) (by decide)).1,
   (c6_missing_id_fail_fast (t := "2024-06-01 00:00:00")
     (E := [("username", "ann")]) (N := [("username", "ann2")])
     (by decide) (by decide)).2⟩

/-! ## Claim C10 -/

/-- C10: the `"unknown"`-id quirk.  The Change Detector raises its
configuration error exactly when the resolved id — the existing record's
`id` if the key is present (even when empty), else the new record's `id`,
else the placeholder — is the literal string `"unknown"`: a record whose
actual id is `"unknown"` is rejected even though both sides carry an id,
while an existing record whose id is the empty string is not rejected. -/
theorem c10_unknown_id_quirk {E N : Record} :
    (aget? E "id" = some "unknown" →
      hasDataChanged E N = .error "ID is unknown")
    ∧ (rmem E "id" = false → aget? N "id" = some "unknown" →
      hasDataChanged E N = .error "ID is unknown")
    ∧ (aget? E "id" = some "" →
      hasDataChanged E N = .ok (changedCore E N)) := by
  refine ⟨?a, ?b, ?c⟩
  · intro h
    unfold hasDataChanged
    rw [if_pos (recordId_of_some h)]
  · intro hE hN
    have hE2 : aget? E "id" = none := by
      revert hE
      unfold rmem
      cases aget? E "id" <;> simp
    unfold hasDataChanged
    rw [if_pos (by rw [recordId_of_none hE2, hN]; rfl)]
  · intro h
    unfold hasDataChanged
    rw [if_neg (by rw [recordId_of_some h]; decide)]

theorem c10_unknown_id_quirk_witness :
    aget? [(("id" : String), ("unknown" : String))] "id" = some "unknown"
    ∧ hasDataChanged [("id", "unknown")] [("id", "unknown")] =
        .error "ID is unknown"
    ∧ aget? [(("id" : String), ("" : String))] "id" = some ""
    ∧ hasDataChanged [("id", "")] [("id", "unknown")] =
        .ok (changedCore [("id", "")] [("id", "unknown")]) :=
  ⟨by decide,
   (c10_unknown_id_quirk (E := [("id", "unknown")])
     (N := [("id", "unknown")])).1 (by decide),
   by decide,
   (c10_unknown_id_quirk (E := [("id", "")])
     (N := [("id", "unknown")])).2.2 (by decide)⟩

/-! ## Claim C9 -/

/-- C9: `has_chat` asymmetry.  `has_chat`, unlike `is_contact`, is not
excluded from change detection: when the existing record has
`has_chat = "Yes"`, the new record says `"No"`, and every other field the
new record carries matches the existing record exactly, the Change
Detector returns `true` and the merge returns the existing record with
only `last_updated` rewritten to the current timestamp — even though
OR-merging keeps every persisted field value unchanged. -/
theorem c9_has_chat_asymmetry {t uid : String} {E N : Record}
    (hid : aget? E "id" = some uid) (hunk : uid ≠ "unknown")
    (hEhc : aget? E "has_chat" = some "Yes")
    (hNhc : aget? N "has_chat" = some "No")
    (hsub : ∀ kv : String × String, kv ∈ N → kv.1 ≠ "has_chat" →
      aget? E kv.1 = some kv.2)
    (hyn : ∀ kv : String × String, kv ∈ N → kv.1 = "is_contact" →
      kv.2 = "Yes" ∨ kv.2 = "No") :
    hasDataChanged E N = .ok true
    ∧ preserveAdditionalColumns t E N = .ok (aset E "last_updated" t) := by
  have he : rget E "has_chat" = "Yes" := rget_eq_of_aget? hEhc
  have hn : rget N "has_chat" = "No" := rget_eq_of_aget? hNhc
  have hfc : fieldChanged E N "has_chat" = true := by
    have hred : fieldChanged E N "has_chat" =
        decide (pyStrip (rget N "has_chat") ≠ ""
          ∧ pyStrip (rget E "has_chat") ≠ pyStrip (rget N "has_chat")) := rfl
    rw [hred, he, hn]
    decide
  have hcc : changedCore E N = true := by
    unfold changedCore
    rw [List.any_eq_true.mpr ⟨"has_chat", by decide, hfc⟩, Bool.true_or]
  have hok : hasDataChanged E N = .ok true := by
    rw [hasDataChanged_ok_of (by rw [recordId_of_some hid]; exact hunk), hcc]
  refine ⟨hok, ?merge⟩
  rw [preserve_ok_of hok]
  rw [if_pos rfl]
  congr 1
  refine foldl_mergeField_id N _ fun kv hkv => ?fix
  by_cases hlu : kv.1 = "last_updated"
  · exact mergeField_lu hlu
  · have hbase : aget? (aset E "last_updated" t) kv.1 = aget? E kv.1 :=
      aget?_aset_ne E t fun h => hlu h.symm
    by_cases hhc : kv.1 = "has_chat"
    · refine mergeField_fix ?ha
      rw [hbase, mergeVal_hc kv.2 hhc, hhc, he, orYes_yes_left]
      exact hhc ▸ hEhc
    · have hv : aget? E kv.1 = some kv.2 := hsub kv hkv hhc
      refine mergeField_fix ?hb
      rw [hbase, hv, mergeVal_self hlu hv ?hyn2]
      rintro (hic | hic)
      · exact hyn kv hkv hic
      · exact absurd hic hhc

def c9E : Record :=
  [("id", "9"), ("has_chat", "Yes"), ("first_name", "Ann"),
   ("is_contact", "Yes"), ("last_updated", "2023-01-01 00:00:00")]

def c9N : Record :=
  [("id", "9"), ("has_chat", "No"), ("first_name", "Ann"),
   ("is_contact", "Yes")]

theorem c9_has_chat_asymmetry_witness :
    aget? c9E "id" = some "9"
    ∧ aget? c9E "has_chat" = some "Yes"
    ∧ aget? c9N "has_chat" = some "No"
    ∧ hasDataChanged c9E c9N = .ok true
    ∧ preserveAdditionalColumns "2024-06-01 00:00:00" c9E c9N =
        .ok (aset c9E "last_updated" "2024-06-01 00:00:00") :=
  ⟨by decide, by decide, by decide,
   (@c9_has_chat_asymmetry "2024-06-01 00:00:00" "9" c9E c9N
     (by decide) (by decide) (by decide) (by decide)
     (by decide) (by decide)).1,
   (@c9_has_chat_asymmetry "2024-06-01 00:00:00" "9" c9E c9N
     (by decide) (by decide) (by decide) (by decide)
     (by decide) (by decide)).2⟩

/-! ## Table-level reconciliation lemmas -/

/-- Every index entry's record carries the entry's key as its `id`
(the first `sync_data` loop keys each row by `row['id']`). -/
def IdxInv (idx : Index) : Prop := ∀ p ∈ idx, aget? p.2 "id" = some p.1

/-- The merged record keeps the id it was keyed by. -/
theorem preserve_id {t : String} {E N M : Record}
    (hnd : (akeys N).Nodup)
    (hid : aget? E "id" = some (uidOf N))
    (h : preserveAdditionalColumns t E N = .ok M) :
    aget? M "id" = some (uidOf N) := by
  obtain ⟨c, hch, hM⟩ := preserve_ok_inv h
  have hlu : ("id" : String) ≠ "last_updated" := by decide
  by_cases hmem : "id" ∈ akeys N
  · obtain ⟨v0, hv0⟩ :=
      Option.isSome_iff_exists.mp ((mem_akeys_iff_aget? N "id").mp hmem)
    have hv0r : uidOf N = v0 := rget_eq_of_aget? hv0
    have hMv : aget? M "id" = some (mergeVal E "id" v0) := by
      rw [hM]
      exact foldl_mergeField_char N _ hnd (mem_of_aget?_eq_some hv0) hlu
        (aget?_base hlu)
    rw [hMv, mergeVal_std_of v0 (by decide) (by decide) (by decide) (by decide)]
    by_cases hv : v0 = ""
    · rw [if_pos hv, rget_eq_of_aget? hid, hv0r, hv]
    · rw [if_neg hv, hv0r]
  · rw [hM, foldl_mergeField_untouched N _ (Or.inr hmem), aget?_base hlu, hid]

theorem syncStep_ok_inv {t : String} {idx idx2 : Index} {n : Record}
    (h : syncStep t idx n = .ok idx2) :
    (∃ e m, aget? idx (uidOf n) = some e
      ∧ preserveAdditionalColumns t e n = .ok m
      ∧ idx2 = aset idx (uidOf n) m)
    ∨ (aget? idx (uidOf n) = none ∧ idx2 = aset idx (uidOf n) (stamp t n)) := by
  unfold syncStep at h
  cases he : aget? idx (uidOf n) with
  | some e =>
    rw [he] at h
    replace h : (match preserveAdditionalColumns t e n with
      | Except.error msg => Except.error msg
      | Except.ok m => Except.ok (aset idx (uidOf n) m)) = Except.ok idx2 := h
    cases hp : preserveAdditionalColumns t e n with
    | error msg =>
      rw [hp] at h
      exact Except.noConfusion h
    | ok m =>
      rw [hp] at h
      exact Or.inl ⟨e, m, rfl, hp, (Except.ok.inj h).symm⟩
  | none =>
    rw [he] at h
    replace h : Except.ok (aset idx (uidOf n) (stamp t n)) = Except.ok idx2 := h
    exact Or.inr ⟨rfl, (Except.ok.inj h).symm⟩

theorem syncFold_nil {t : String} {idx : Index} :
    syncFold t idx [] = .ok idx := rfl

theorem syncFold_cons_inv {t : String} {idx idx2 : Index} {n : Record}
    {R : List Record} (h : syncFold t idx (n :: R) = .ok idx2) :
    ∃ idx1, syncStep t idx n = .ok idx1 ∧ syncFold t idx1 R = .ok idx2 := by
  unfold syncFold at h
  cases hs : syncStep t idx n with
  | error msg => rw [hs] at h; exact Except.noConfusion h
  | ok idx1 => rw [hs] at h; exact ⟨idx1, rfl, h⟩

/-- A fold step only rewrites the entry at the new record's id. -/
theorem syncFold_untouched {t : String} {u : String} :
    ∀ (R : List Record) (idx idx2 : Index),
      (∀ n ∈ R, uidOf n ≠ u) → syncFold t idx R = .ok idx2 →
      aget? idx2 u = aget? idx u := by
  intro R
  induction R with
  | nil => intro idx idx2 _ h; rw [← Except.ok.inj h]
  | cons n R ih =>
    intro idx idx2 hu h
    obtain ⟨idx1, hs, hf⟩ := syncFold_cons_inv h
    have hne : uidOf n ≠ u := hu n (List.mem_cons_self n R)
    have hstep : aget? idx1 u = aget? idx u := by
      rcases syncStep_ok_inv hs with ⟨e, m, -, -, hidx1⟩ | ⟨-, hidx1⟩ <;>
        rw [hidx1, aget?_aset_ne idx _ hne]
    rw [ih idx1 idx2 (fun n2 hn2 => hu n2 (List.mem_cons_of_mem _ hn2)) hf, hstep]

theorem syncFold_ne_nil {t : String} :
    ∀ (R : List Record) (idx idx2 : Index),
      idx ≠ [] → syncFold t idx R = .ok idx2 → idx2 ≠ [] := by
  intro R
  induction R with
  | nil => intro idx idx2 hne h; rw [← Except.ok.inj h]; exact hne
  | cons n R ih =>
    intro idx idx2 hne h
    obtain ⟨idx1, hs, hf⟩ := syncFold_cons_inv h
    have hidx1 : idx1 ≠ [] := by
      rcases syncStep_ok_inv hs with ⟨e, m, -, -, hidx1⟩ | ⟨-, hidx1⟩ <;>
        (rw [hidx1]; exact aset_nonempty idx _ _)
    exact ih idx1 idx2 hidx1 hf

/-- Folding `merged_records[row['id']] = row` over rows with pairwise
distinct, fresh ids appends the key/row pairs in order. -/
theorem foldl_aset_fresh :
    ∀ (L : List Record) (acc : Index),
      (akeys acc ++ L.map uidOf).Nodup →
      L.foldl (fun a r => aset a (uidOf r) r) acc =
        acc ++ L.map fun r => (uidOf r, r) := by
  intro L
  induction L with
  | nil => intro acc _; simp
  | cons r L ih =>
    intro acc hnd
    rw [List.foldl_cons]
    have hmem : uidOf r ∉ akeys acc := by
      intro hm
      have := (List.nodup_append.mp hnd).2.2
      exact this hm (by simp)
    rw [aset_append_of_not_mem r hmem, ih (acc ++ [(uidOf r, r)])
      (by
        rw [akeys_append]
        have : akeys acc ++ akeys [(uidOf r, r)] ++ List.map uidOf L =
            akeys acc ++ (uidOf r :: List.map uidOf L) := by
          simp [akeys]
        rw [this]
        simpa using hnd)]
    simp

theorem buildIndex_of_nodup {L : List Record}
    (hnd : (L.map uidOf).Nodup) :
    buildIndex L = L.map fun r => (uidOf r, r) := by
  unfold buildIndex
  rw [foldl_aset_fresh L [] (by simpa [akeys] using hnd)]
  simp

/-- Rebuilding the index from its own row list returns the index itself:
the second pass of a reconciliation sees exactly the first pass's index. -/
theorem buildIndex_vals {idx : Index} (hinv : IdxInv idx)
    (hnd : (akeys idx).Nodup) :
    buildIndex (idx.map Prod.snd) = idx := by
  have huid : ∀ p ∈ idx, uidOf p.2 = p.1 := fun p hp =>
    rget_eq_of_aget? (hinv p hp)
  have hmapuid : (idx.map Prod.snd).map uidOf = akeys idx := by
    rw [List.map_map]
    exact List.map_congr_left fun p hp => huid p hp
  rw [buildIndex_of_nodup (by rw [hmapuid]; exact hnd), List.map_map]
  conv_rhs => rw [show idx = idx.map id from (List.map_id idx).symm]
  refine List.map_congr_left fun p hp => ?e
  have := huid p hp
  simp [Function.comp, this]

theorem buildIndex_inv :
    ∀ (T : Table) (acc : Index), IdxInv acc → (akeys acc).Nodup →
      (∀ r ∈ T, rmem r "id" = true) →
      IdxInv (T.foldl (fun a r => aset a (uidOf r) r) acc)
      ∧ (akeys (T.foldl (fun a r => aset a (uidOf r) r) acc)).Nodup := by
  intro T
  induction T with
  | nil => intro acc hinv hnd _; exact ⟨hinv, hnd⟩
  | cons r T ih =>
    intro acc hinv hnd hid
    rw [List.foldl_cons]
    refine ih (aset acc (uidOf r) r) ?inv ?nd
      (fun r2 hr2 => hid r2 (List.mem_cons_of_mem _ hr2))
    · intro p hp
      rcases mem_aset hp with h | h
      · rw [h]
        exact aget?_eq_some_rget (hid r (List.mem_cons_self r T))
      · exact hinv p h
    · exact akeys_aset_nodup r hnd

theorem buildIndex_ne_nil {T : Table} (h : T ≠ []) : buildIndex T ≠ [] := by
  unfold buildIndex
  cases T with
  | nil => exact absurd rfl h
  | cons r T =>
    rw [List.foldl_cons]
    have : ∀ (L : List Record) (acc : Index), acc ≠ [] →
        L.foldl (fun a r => aset a (uidOf r) r) acc ≠ [] := by
      intro L
      induction L with
      | nil => intro acc ha; exact ha
      | cons r2 L ih =>
        intro acc ha
        rw [List.foldl_cons]
        exact ih _ (aset_nonempty acc _ _)
    exact this T _ (aset_nonempty [] _ _)

/-- How an entry of the first pass's index arose: either the new record
inserted with a fresh timestamp, or a merge of some existing record keyed
by the same id. -/
def MergedFrom (t1 : String) (n M : Record) : Prop :=
  M = stamp t1 n
  ∨ ∃ E, aget? E "id" = some (uidOf n)
      ∧ preserveAdditionalColumns t1 E n = .ok M

/-- After a successful first pass, the index is well-keyed, its keys are
unique, and each batch record's entry is a stamped insert or a merge. -/
theorem syncFold_char {t1 : String} :
    ∀ (R : List Record) (idx idx2 : Index),
      IdxInv idx → (akeys idx).Nodup →
      (R.map uidOf).Nodup →
      (∀ n ∈ R, (akeys n).Nodup) →
      (∀ n ∈ R, rmem n "id" = true) →
      syncFold t1 idx R = .ok idx2 →
      IdxInv idx2 ∧ (akeys idx2).Nodup
      ∧ ∀ n ∈ R, ∃ M, aget? idx2 (uidOf n) = some M ∧ MergedFrom t1 n M := by
  intro R
  induction R with
  | nil =>
    intro idx idx2 hinv hnd _ _ _ h
    rw [← Except.ok.inj h]
    exact ⟨hinv, hnd, by simp⟩
  | cons n R ih =>
    intro idx idx2 hinv hnd huid hkeys hid h
    obtain ⟨idx1, hs, hf⟩ := syncFold_cons_inv h
    rw [List.map_cons, List.nodup_cons] at huid
    -- the head's entry in idx1, and how it arose
    have hstep : ∃ M, aget? idx1 (uidOf n) = some M ∧ MergedFrom t1 n M ∧
        idx1 = aset idx (uidOf n) M := by
      rcases syncStep_ok_inv hs with ⟨e, m, he, hp, hidx1⟩ | ⟨he, hidx1⟩
      · refine ⟨m, ?look, Or.inr ⟨e, ?eid, hp⟩, hidx1⟩
        · rw [hidx1]; exact aget?_aset_self idx _ m
        · exact hinv (uidOf n, e) (mem_of_aget?_eq_some he)
      · refine ⟨stamp t1 n, ?look2, Or.inl rfl, hidx1⟩
        rw [hidx1]; exact aget?_aset_self idx _ _
    obtain ⟨M, hM, hfrom, hidx1⟩ := hstep
    -- invariants carry to idx1
    have hMid : aget? M "id" = some (uidOf n) := by
      rcases hfrom with hins | ⟨E, hEid, hp⟩
      · rw [hins]
        unfold stamp
        rw [aget?_aset_ne n _ (by decide)]
        exact aget?_eq_some_rget (hid n (List.mem_cons_self n R))
      · exact preserve_id (hkeys n (List.mem_cons_self n R)) hEid hp
    have hinv1 : IdxInv idx1 := by
      intro p hp
      rw [hidx1] at hp
      rcases mem_aset hp with hpe | hpe
      · rw [hpe]; exact hMid
      · exact hinv p hpe
    have hnd1 : (akeys idx1).Nodup := by
      rw [hidx1]; exact akeys_aset_nodup M hnd
    obtain ⟨hinv2, hnd2, hchar⟩ := ih idx1 idx2 hinv1 hnd1 huid.2
      (fun n2 hn2 => hkeys n2 (List.mem_cons_of_mem _ hn2))
      (fun n2 hn2 => hid n2 (List.mem_cons_of_mem _ hn2)) hf
    refine ⟨hinv2, hnd2, ?tail⟩
    intro n2 hn2
    rcases List.mem_cons.mp hn2 with hh | hh
    · subst hh
      refine ⟨M, ?stable, hfrom⟩
      rw [syncFold_untouched R idx1 idx2 ?fresh hf, hM]
      intro n3 hn3 heq
      exact huid.1 (heq ▸ List.mem_map_of_mem uidOf hn3)
    · exact hchar n2 hh

/-- Relation between a first-pass index entry and the corresponding
second-pass entry: same key, and the record is unchanged except possibly
for a rewritten `last_updated`. -/
def ReMerge (t2 : String) (p q : String × Record) : Prop :=
  p.1 = q.1 ∧ (q.2 = p.2 ∨ q.2 = aset p.2 "last_updated" t2)

theorem remerge_refl (t2 : String) (p : String × Record) : ReMerge t2 p p :=
  ⟨rfl, Or.inl rfl⟩

theorem remerge_trans {t2 : String} {p q r : String × Record}
    (h1 : ReMerge t2 p q) (h2 : ReMerge t2 q r) : ReMerge t2 p r := by
  refine ⟨h1.1.trans h2.1, ?v⟩
  rcases h1.2 with hv1 | hv1 <;> rcases h2.2 with hv2 | hv2
  · exact Or.inl (hv2.trans hv1)
  · exact Or.inr (by rw [hv2, hv1])
  · exact Or.inr (by rw [hv2, hv1])
  · exact Or.inr (by rw [hv2, hv1, aset_aset_same])

theorem forall₂_remerge_trans {t2 : String} :
    ∀ {a b c : Index}, List.Forall₂ (ReMerge t2) a b →
      List.Forall₂ (ReMerge t2) b c → List.Forall₂ (ReMerge t2) a c := by
  intro a
  induction a with
  | nil =>
    intro b c h1 h2
    cases h1
    cases h2
    exact List.Forall₂.nil
  | cons p a ih =>
    intro b c h1 h2
    cases h1 with
    | cons hpq h1tl =>
      cases h2 with
      | cons hqr h2tl =>
        exact List.Forall₂.cons (remerge_trans hpq hqr) (ih h1tl h2tl)

/-- Updating an entry in place relates old and new index by `ReMerge`. -/
theorem forall₂_aset_remerge {t2 : String} {u : String} {M M2 : Record} :
    ∀ {idx : Index}, aget? idx u = some M →
      (M2 = M ∨ M2 = aset M "last_updated" t2) →
      List.Forall₂ (ReMerge t2) idx (aset idx u M2) := by
  intro idx
  induction idx with
  | nil => intro h _; exact absurd h (by simp [aget?])
  | cons p idx ih =>
    intro h hv
    obtain ⟨k, r⟩ := p
    by_cases hk : k = u
    · subst hk
      unfold aget? at h
      rw [if_pos rfl] at h
      have hr : r = M := Option.some.inj h
      subst hr
      unfold aset
      rw [if_pos rfl]
      exact List.Forall₂.cons ⟨rfl, by simpa using hv⟩
        (List.forall₂_same.mpr fun p _ => remerge_refl t2 p)
    · unfold aset
      rw [if_neg hk]
      refine List.Forall₂.cons (remerge_refl t2 (k, r)) (ih ?look hv)
      unfold aget? at h
      rw [if_neg hk] at h
      exact h

/-- Second pass over the same batch: every step succeeds and only
`last_updated` values can move. -/
theorem syncFold_stable {t2 : String} :
    ∀ (R : List Record) (idx : Index),
      (R.map uidOf).Nodup →
      (∀ n ∈ R, ∃ M, aget? idx (uidOf n) = some M
        ∧ preserveAdditionalColumns t2 M n =
            .ok (if changedCore M n then aset M "last_updated" t2 else M)) →
      ∃ idx2, syncFold t2 idx R = .ok idx2
        ∧ List.Forall₂ (ReMerge t2) idx idx2 := by
  intro R
  induction R with
  | nil =>
    intro idx _ _
    exact ⟨idx, rfl, List.forall₂_same.mpr fun p _ => remerge_refl t2 p⟩
  | cons n R ih =>
    intro idx huid hhyp
    rw [List.map_cons, List.nodup_cons] at huid
    obtain ⟨M, hM, hok⟩ := hhyp n (List.mem_cons_self n R)
    have hstep : syncStep t2 idx n =
        .ok (aset idx (uidOf n)
          (if changedCore M n then aset M "last_updated" t2 else M)) := by
      unfold syncStep
      rw [hM]
      show (match preserveAdditionalColumns t2 M n with
        | Except.error msg => Except.error msg
        | Except.ok m => Except.ok (aset idx (uidOf n) m)) =
        Except.ok (aset idx (uidOf n)
          (if changedCore M n then aset M "last_updated" t2 else M))
      rw [hok]
    set M2 := if changedCore M n then aset M "last_updated" t2 else M with hM2
    have hMv : M2 = M ∨ M2 = aset M "last_updated" t2 := by
      rw [hM2]
      cases changedCore M n
      · exact Or.inl rfl
      · exact Or.inr rfl
    have htransfer : ∀ n2 ∈ R, ∃ M3,
        aget? (aset idx (uidOf n) M2) (uidOf n2) = some M3
        ∧ preserveAdditionalColumns t2 M3 n2 =
            .ok (if changedCore M3 n2 then aset M3 "last_updated" t2 else M3) := by
      intro n2 hn2
      obtain ⟨M3, hM3, hok3⟩ := hhyp n2 (List.mem_cons_of_mem _ hn2)
      refine ⟨M3, ?look, hok3⟩
      have hne : uidOf n ≠ uidOf n2 := by
        intro he
        exact huid.1 (by rw [he]; exact List.mem_map_of_mem uidOf hn2)
      rw [aget?_aset_ne idx _ hne]
      exact hM3
    obtain ⟨idx2, hf, hrel⟩ := ih (aset idx (uidOf n) M2) huid.2 htransfer
    refine ⟨idx2, ?fold, forall₂_remerge_trans
      (forall₂_aset_remerge hM hMv) hrel⟩
    unfold syncFold
    rw [hstep]
    exact hf

theorem forall₂_snd {t2 : String} :
    ∀ {a b : Index}, List.Forall₂ (ReMerge t2) a b →
      List.Forall₂ (fun x y => y = x ∨ y = aset x "last_updated" t2)
        (a.map Prod.snd) (b.map Prod.snd) := by
  intro a b h
  induction h with
  | nil => exact List.Forall₂.nil
  | cons hpq htl ih => exact List.Forall₂.cons hpq.2 ih

theorem syncData_nonempty_eq {t : String} {T : Table} (R : List Record)
    (hT : T ≠ []) :
    syncData t T R =
      match syncFold t (buildIndex T) R with
      | .ok idx => .ok (idx.map Prod.snd)
      | .error msg => .error msg := by
  have hf : T.isEmpty = false := by
    cases T with
    | nil => exact absurd rfl hT
    | cons r T => rfl
  unfold syncData
  rw [if_neg (by simp [hf])]

theorem uidOf_stamp (t : String) (m : Record) : uidOf (stamp t m) = uidOf m := by
  unfold uidOf stamp rget
  rw [aget?_aset_ne m t (by decide)]

/-! ## Claim C1 -/

def c1T : Table :=
  [[("id", "1"), ("has_chat", "Yes"), ("last_updated", "2024-01-01 00:00:00")]]

def c1R : List Record := [[("id", "1"), ("has_chat", "No")]]

def c1T1 : Table :=
  [[("id", "1"), ("has_chat", "Yes"), ("last_updated", "2024-01-02 10:00:00")]]

def c1T2 : Table :=
  [[("id", "1"), ("has_chat", "Yes"), ("last_updated", "2024-01-03 10:00:00")]]

/-- C1 counterexample: reconciliation is not idempotent field-for-field
including `last_updated`.  The existing row has `has_chat = "Yes"`, the
batch says `"No"`; OR-merging keeps `"Yes"`, but `has_chat` is not
excluded from change detection, so the second application re-bumps
`last_updated` to the later run's timestamp and the two tables differ. -/
theorem c1_counterexample :
    syncData "2024-01-02 10:00:00" c1T c1R = .ok c1T1
    ∧ syncData "2024-01-03 10:00:00" c1T1 c1R = .ok c1T2
    ∧ c1T1 ≠ c1T2 :=
  ⟨by decide, by decide, by decide⟩

/-- C1 amended: reconciliation is idempotent on every persisted field
except `last_updated`.  Under the data-model invariants (each batch record
is a dict with an `id` field whose value is not the reserved placeholder
`"unknown"`, batch ids are pairwise distinct, `is_contact`/`has_chat`
carry `"Yes"`/`"No"`, and stored rows have an `id` column), a second
application of the same batch to the first application's output succeeds
and returns the same table row-for-row, where each row is unchanged or
differs only in `last_updated` being rewritten to the second run's
timestamp. -/
theorem c1_amended {t1 t2 : String} {T T1 : Table} {R : List Record}
    (hRuid : (R.map uidOf).Nodup)
    (hRkeys : ∀ n ∈ R, (akeys n).Nodup)
    (hRid : ∀ n ∈ R, rmem n "id" = true)
    (hRunk : ∀ n ∈ R, rget n "id" ≠ "unknown")
    (hRyn : ∀ n ∈ R, ∀ kv : String × String, kv ∈ n →
      kv.1 = "is_contact" ∨ kv.1 = "has_chat" → kv.2 = "Yes" ∨ kv.2 = "No")
    (hTid : ∀ r ∈ T, rmem r "id" = true)
    (h1 : syncData t1 T R = .ok T1) :
    ∃ T2, syncData t2 T1 R = .ok T2
      ∧ List.Forall₂
          (fun a b => b = a ∨ b = aset a "last_updated" t2) T1 T2 := by
  cases T with
  | nil =>
    -- first pass returned the batch, stamped
    have hT1 : T1 = R.map (stamp t1) := (Except.ok.inj h1).symm
    cases R with
    | nil =>
      subst hT1
      exact ⟨[], rfl, List.Forall₂.nil⟩
    | cons n R' =>
      have hT1ne : T1 ≠ [] := by rw [hT1]; simp
      have huidT1 : T1.map uidOf = (n :: R').map uidOf := by
        rw [hT1, List.map_map]
        exact List.map_congr_left fun m _ => uidOf_stamp t1 m
      have hidx : buildIndex T1 = T1.map fun r => (uidOf r, r) :=
        buildIndex_of_nodup (by rw [huidT1]; exact hRuid)
      have hlook : ∀ m ∈ n :: R',
          aget? (buildIndex T1) (uidOf m) = some (stamp t1 m) := by
        intro m hm
        rw [hidx]
        refine aget?_eq_some_of_mem_nodup ?nd ?mem
        · have : akeys (T1.map fun r => (uidOf r, r)) = T1.map uidOf := by
            unfold akeys
            rw [List.map_map]
            rfl
          rw [this, huidT1]
          exact hRuid
        · have hms : stamp t1 m ∈ T1 := by
            rw [hT1]
            exact List.mem_map_of_mem (stamp t1) hm
          have := List.mem_map_of_mem (fun r => (uidOf r, r)) hms
          simpa [uidOf_stamp t1 m] using this
      have hhyp : ∀ m ∈ n :: R', ∃ M,
          aget? (buildIndex T1) (uidOf m) = some M
          ∧ preserveAdditionalColumns t2 M m =
              .ok (if changedCore M m then aset M "last_updated" t2 else M) :=
        fun m hm => ⟨stamp t1 m, hlook m hm,
          preserve_restable_of_stamp (hRkeys m hm) (hRid m hm)
            (hRunk m hm) (fun kv hkv => hRyn m hm kv hkv)⟩
      obtain ⟨idx2, hf, hrel⟩ := syncFold_stable (n :: R') _ hRuid hhyp
      refine ⟨idx2.map Prod.snd, ?eq, ?rel⟩
      · rw [syncData_nonempty_eq (n :: R') hT1ne, hf]
      · have hvals : (buildIndex T1).map Prod.snd = T1 := by
          rw [hidx, List.map_map]
          exact List.map_id T1
        rw [← hvals]
        exact forall₂_snd hrel
  | cons r T' =>
    -- first pass: merge loop over the index of the stored table
    have hTne : (r :: T') ≠ [] := by simp
    rw [syncData_nonempty_eq R hTne] at h1
    obtain ⟨idx1, hf1, hT1⟩ : ∃ idx1,
        syncFold t1 (buildIndex (r :: T')) R = .ok idx1
        ∧ T1 = idx1.map Prod.snd := by
      cases hff : syncFold t1 (buildIndex (r :: T')) R with
      | error msg => rw [hff] at h1; exact Except.noConfusion h1
      | ok idx1 => rw [hff] at h1; exact ⟨idx1, rfl, (Except.ok.inj h1).symm⟩
    have hbuild := buildIndex_inv (r :: T') [] (by intro p hp; simp at hp)
      (by simp [akeys_nil]) hTid
    obtain ⟨hinv1, hnd1, hchar⟩ := syncFold_char R _ idx1 hbuild.1 hbuild.2
      hRuid hRkeys hRid hf1
    have hidx1ne : idx1 ≠ [] :=
      syncFold_ne_nil R _ idx1 (buildIndex_ne_nil (by simp)) hf1
    have hT1ne : T1 ≠ [] := by
      rw [hT1]
      simpa using hidx1ne
    have hrebuild : buildIndex T1 = idx1 := by
      rw [hT1]
      exact buildIndex_vals hinv1 hnd1
    have hhyp : ∀ n ∈ R, ∃ M,
        aget? (buildIndex T1) (uidOf n) = some M
        ∧ preserveAdditionalColumns t2 M n =
            .ok (if changedCore M n then aset M "last_updated" t2 else M) := by
      intro n hn
      obtain ⟨M, hM, hfrom⟩ := hchar n hn
      refine ⟨M, by rw [hrebuild]; exact hM, ?stable⟩
      rcases hfrom with hins | ⟨E, hEid, hp⟩
      · rw [hins]
        exact preserve_restable_of_stamp (hRkeys n hn) (hRid n hn)
          (hRunk n hn) (fun kv hkv => hRyn n hn kv hkv)
      · exact preserve_restable_of_merge (hRkeys n hn) hEid hp
    obtain ⟨idx2, hf2, hrel⟩ := syncFold_stable R _ hRuid hhyp
    refine ⟨idx2.map Prod.snd, ?eq2, ?rel2⟩
    · rw [syncData_nonempty_eq R hT1ne, hf2]
    · have hvals : (buildIndex T1).map Prod.snd = T1 := by
        rw [hrebuild, hT1]
      rw [← hvals]
      exact forall₂_snd hrel

def c1wT : Table :=
  [[("id", "1"), ("has_chat", "Yes"), ("is_contact", "No"),
    ("last_updated", "2024-01-01 00:00:00")],
   [("id", "2"), ("first_name", "Bob"), ("last_updated", "2024-01-01 00:00:00")]]

def c1wR : List Record :=
  [[("id", "1"), ("has_chat", "No"), ("is_contact", "Yes")],
   [("id", "3"), ("first_name", "Cid")]]

def c1wT1 : Table :=
  [[("id", "1"), ("has_chat", "Yes"), ("is_contact", "Yes"),
    ("last_updated", "2024-01-02 10:00:00")],
   [("id", "2"), ("first_name", "Bob"), ("last_updated", "2024-01-01 00:00:00")],
   [("id", "3"), ("first_name", "Cid"), ("last_updated", "2024-01-02 10:00:00")]]

theorem c1_amended_witness :
    syncData "2024-01-02 10:00:00" c1wT c1wR = .ok c1wT1
    ∧ ∃ T2, syncData "2024-01-03 10:00:00" c1wT1 c1wR = .ok T2
      ∧ List.Forall₂
          (fun a b => b = a ∨ b = aset a "last_updated" "2024-01-03 10:00:00")
          c1wT1 T2 :=
  ⟨by decide,
   @c1_amended "2024-01-02 10:00:00" "2024-01-03 10:00:00" c1wT c1wT1 c1wR
     (by decide) (by decide) (by decide) (by decide)
     (by decide) (by decide) (by decide)⟩

/-! ## Sorting lemmas for the snapshot pruner -/

theorem insertDesc_perm (x : BackupSheet) (l : List BackupSheet) :
    (insertDesc x l).Perm (x :: l) := by
  induction l with
  | nil => exact List.Perm.refl _
  | cons y ys ih =>
    unfold insertDesc
    by_cases h : y.timestamp < x.timestamp
    · rw [if_pos h]
    · rw [if_neg h]
      exact (List.Perm.cons y ih).trans (List.Perm.swap x y ys)

theorem foldl_insertDesc_perm :
    ∀ (l acc : List BackupSheet),
      (l.foldl (fun a x => insertDesc x a) acc).Perm (l ++ acc) := by
  intro l
  induction l with
  | nil => intro acc; simp
  | cons x l ih =>
    intro acc
    rw [List.foldl_cons]
    refine (ih (insertDesc x acc)).trans ?step
    refine (List.Perm.append_left l (insertDesc_perm x acc)).trans ?mid
    exact List.perm_middle

theorem sortBackupsDesc_perm (l : List BackupSheet) :
    (sortBackupsDesc l).Perm l := by
  unfold sortBackupsDesc
  simpa using foldl_insertDesc_perm l []

/-- Descending order on parsed timestamps. -/
def TsGE (a b : BackupSheet) : Prop := b.timestamp ≤ a.timestamp

theorem insertDesc_sorted {x : BackupSheet} {l : List BackupSheet}
    (h : l.Pairwise TsGE) : (insertDesc x l).Pairwise TsGE := by
  induction l with
  | nil => simp [insertDesc]
  | cons y ys ih =>
    rw [List.pairwise_cons] at h
    unfold insertDesc
    by_cases hlt : y.timestamp < x.timestamp
    · rw [if_pos hlt]
      refine List.Pairwise.cons ?hx (List.Pairwise.cons h.1 h.2)
      intro z hz
      rcases List.mem_cons.mp hz with hz | hz
      · rw [hz]; exact le_of_lt hlt
      · exact le_trans (h.1 z hz) (le_of_lt hlt)
    · rw [if_neg hlt]
      refine List.Pairwise.cons ?hy (ih h.2)
      intro z hz
      rcases List.mem_cons.mp ((insertDesc_perm x ys).mem_iff.mp hz) with hz | hz
      · rw [hz]; exact le_of_not_lt hlt
      · exact h.1 z hz

theorem sortBackupsDesc_sorted (l : List BackupSheet) :
    (sortBackupsDesc l).Pairwise TsGE := by
  unfold sortBackupsDesc
  have : ∀ (l2 acc : List BackupSheet), acc.Pairwise TsGE →
      (l2.foldl (fun a x => insertDesc x a) acc).Pairwise TsGE := by
    intro l2
    induction l2 with
    | nil => intro acc h; exact h
    | cons x l2 ih =>
      intro acc h
      rw [List.foldl_cons]
      exact ih _ (insertDesc_sorted h)
  exact this l [] List.Pairwise.nil

/-! ## Claim C7 -/

def c7sheets : List SheetInfo :=
  [⟨"Telegram Data_backup_20240101_0000", 11⟩,
   ⟨"Telegram Data_backup_20240102_0000", 12⟩]

/-- C7 counterexample: a deletion failure does not abort the prune call or
surface the underlying error.  With two parsed backups, a retention count
of one and a failing batch delete, the `try` body raises — but
`cleanup_old_backups` catches every exception and returns 0 to its caller
as if nothing were wrong. -/
theorem c7_counterexample :
    cleanupRaw true "Telegram Data" c7sheets 1 = .error "batchUpdate failed"
    ∧ cleanupOldBackups true "Telegram Data" c7sheets 1 = 0 :=
  ⟨by decide, by decide⟩

/-- C7 amended: pruning considers exactly the sheets whose titles extend
`{sourceName}_backup_` with a suffix that `strptime`-parses as a
`YYYYMMDD_HHMM` timestamp, sorts them descending by that timestamp,
deletes all but the newest `keepCount` — every deleted sheet parses, and
is no newer than any kept one — and, when deletion succeeds, returns the
number deleted; but when the deletion step fails the call catches the
error, reports it, and returns 0: the error is never surfaced to the
caller. -/
theorem c7_amended (name : String) (sheets : List SheetInfo) (keep : Nat) :
    cleanupOldBackups false name sheets keep
        = (collectBackups name sheets).length - keep
    ∧ cleanupOldBackups true name sheets keep = 0
    ∧ (∀ b ∈ sheetsToDelete name sheets keep, ∃ s ∈ sheets,
        b.name = s.title
        ∧ listStarts (name ++ "_backup_").data s.title.data = true
        ∧ parseBackupTimestamp
            (String.mk (s.title.data.drop (name ++ "_backup_").data.length))
          = some b.timestamp)
    ∧ (∀ b ∈ sheetsToDelete name sheets keep,
        ∀ c ∈ (sortBackupsDesc (collectBackups name sheets)).take keep,
          b.timestamp ≤ c.timestamp) := by
  have hlen : (sheetsToDelete name sheets keep).length
      = (collectBackups name sheets).length - keep := by
    unfold sheetsToDelete
    rw [List.length_drop,
      (sortBackupsDesc_perm (collectBackups name sheets)).length_eq]
  refine ⟨?c1, ?c2, ?c3, ?c4⟩
  · simp only [cleanupOldBackups, cleanupRaw]
    by_cases h : (sheetsToDelete name sheets keep).isEmpty = true
    · rw [if_pos h]
      rw [List.isEmpty_iff] at h
      have h0 : (sheetsToDelete name sheets keep).length = 0 := by
        rw [h]; rfl
      rw [← hlen, h0]
    · rw [if_neg h, if_neg (show ¬(false = true) by decide)]
      exact hlen
  · simp only [cleanupOldBackups, cleanupRaw]
    by_cases h : (sheetsToDelete name sheets keep).isEmpty = true
    · rw [if_pos h]
    · rw [if_neg h, if_pos trivial]
  · intro b hb
    have hbc : b ∈ collectBackups name sheets :=
      (sortBackupsDesc_perm _).mem_iff.mp (List.mem_of_mem_drop hb)
    obtain ⟨s, hs, hf⟩ := List.mem_filterMap.mp hbc
    refine ⟨s, hs, ?props⟩
    by_cases hstart : listStarts (name ++ "_backup_").data s.title.data = true
    · rw [if_pos hstart] at hf
      cases hp : parseBackupTimestamp
          (String.mk (s.title.data.drop (name ++ "_backup_").data.length)) with
      | some ts =>
        rw [hp] at hf
        have hb2 := Option.some.inj hf
        subst hb2
        exact ⟨rfl, hstart, rfl⟩
      | none =>
        rw [hp] at hf
        exact Option.noConfusion hf
    · rw [if_neg hstart] at hf
      exact Option.noConfusion hf
  · intro b hb c hc
    have hsorted := sortBackupsDesc_sorted (collectBackups name sheets)
    have hsplit := List.take_append_drop keep
      (sortBackupsDesc (collectBackups name sheets))
    rw [← hsplit] at hsorted
    exact (List.pairwise_append.mp hsorted).2.2 c hc b hb

def c7b : BackupSheet :=
  ⟨"Telegram Data_backup_20240101_0000", 11, 1212504480⟩

def c7c : BackupSheet :=
  ⟨"Telegram Data_backup_20240102_0000", 12, 1212505920⟩

theorem c7_amended_witness :
    cleanupOldBackups false "Telegram Data" c7sheets 1
        = (collectBackups "Telegram Data" c7sheets).length - 1
    ∧ cleanupOldBackups true "Telegram Data" c7sheets 1 = 0
    ∧ (∃ s ∈ c7sheets, c7b.name = s.title
        ∧ listStarts ("Telegram Data" ++ "_backup_").data s.title.data = true
        ∧ parseBackupTimestamp
            (String.mk
              (s.title.data.drop ("Telegram Data" ++ "_backup_").data.length))
          = some c7b.timestamp)
    ∧ c7b.timestamp ≤ c7c.timestamp :=
  ⟨(c7_amended "Telegram Data" c7sheets 1).1,
   (c7_amended "Telegram Data" c7sheets 1).2.1,
   (c7_amended "Telegram Data" c7sheets 1).2.2.1 c7b (by decide),
   (c7_amended "Telegram Data" c7sheets 1).2.2.2 c7b (by decide) c7c (by decide)⟩

/-! ## Claim C8 -/

def c8Stored : Table := [[("id", "1"), ("first_name", "Old")]]

def c8R : List Record := [[("id", "2"), ("first_name", "New")]]

/-- C8 counterexample: a failed store read is not propagated.  With a
non-empty stored table and a failing read, `sync_data` returns normally —
exactly the result it would produce for an empty existing table — and the
stored row is silently dropped; only a successful read preserves it. -/
theorem c8_counterexample :
    syncWithRead true "2024-06-01 00:00:00" c8Stored c8R =
      .ok [[("id", "2"), ("first_name", "New"),
            ("last_updated", "2024-06-01 00:00:00")]]
    ∧ syncWithRead true "2024-06-01 00:00:00" c8Stored c8R =
        syncData "2024-06-01 00:00:00" [] c8R
    ∧ syncWithRead false "2024-06-01 00:00:00" c8Stored c8R ≠
        syncWithRead true "2024-06-01 00:00:00" c8Stored c8R :=
  ⟨by decide, by decide, by decide⟩

/-- C8 amended: when the store read fails, `read_data` catches the error
and returns an empty table, and `sync_data` then takes its empty-table
path: the call returns the new records stamped with the current timestamp
— the same output as for a genuinely empty store — and no error reaches
the caller, whatever the stored table contained. -/
theorem c8_amended (stored : Table) (R : List Record) (t : String) :
    syncWithRead true t stored R = .ok (R.map (stamp t))
    ∧ syncWithRead true t stored R = syncData t [] R :=
  ⟨rfl, rfl⟩

end TgExport
